import Mathlib

/-
Verification of the yex-lang bytecode compiler front-end.

The embedding below translates `src/front/src/compiler/mod.rs` (the AST-driven
code generator) and `src/vm/src/prelude/list.rs` (the `head` prelude function)
into Lean.  The compiler is a tree-walking emitter over a stack of scopes, each
holding an opcode buffer and a map from names to dense local slot indices,
together with a shared constant pool.  Everything is translated directly from
the source; types whose definitions live outside the provided sources (the
opcode enum, the AST node types, the value type and its equality) are modelled
from the specification and are marked as such in their doc comments.
-/

set_option maxRecDepth 20000

namespace Yex

/-- Source location attached to AST nodes and propagated to instructions
(struct `Location` of the parser AST; spec section 3). -/
structure Location where
  line : Nat
  column : Nat
  deriving DecidableEq, Repr

/-- Modelled from the spec: the opcode set of spec section 6.  The `OpCode`
enum itself lives in the vm crate, which is not among the provided sources;
only the variants used by the front-end are modelled.  `tryC` stands for the
source's `Try` variant. -/
inductive OpCode where
  | push (i : Nat)
  | pop
  | dup
  | rev
  | revN (n : Nat)
  | save (i : Nat)
  | load (i : Nat)
  | savg (s : String)
  | loag (s : String)
  | jmp (a : Nat)
  | jmf (a : Nat)
  | call (n : Nat)
  | tcall (n : Nat)
  | tryC (a : Nat)
  | endTry
  | tup (n : Nat)
  | tupGet (i : Nat)
  | tag (s : String)
  | tagOf
  | tagTup
  | ref (s : String)
  | prep
  | len
  | eq
  | add
  | sub
  | mul
  | div
  | not
  | neg
  deriving DecidableEq, Repr

/-- An instruction: an opcode with the line and column of the AST node that
produced it (struct `OpCodeMetadata`). -/
structure OpCodeMetadata where
  opcode : OpCode
  line : Nat
  column : Nat
  deriving DecidableEq, Repr

/-- Modelled from the spec: AST literals (spec section 3: number, string,
symbol, boolean, nil).  The `Literal` type lives in the parser AST, which is
not among the provided sources.  The source's numbers are 64-bit floats; all
literals exercised by the claims are exact small integers, so the numeric
payload is modelled as an integer. -/
inductive Literal where
  | num (n : Int)
  | str (s : String)
  | sym (s : String)
  | bool (b : Bool)
  | nilL
  deriving DecidableEq, Repr

mutual
/-- Modelled from the spec: runtime/constant values (spec section 3).  The
`Value` enum lives in the vm crate, which is not among the provided sources.
A `tagged` value holds a reference to the module it belongs to; in the source
this is a shared `GcRef` (a reference cycle for nullary variants), modelled
here by the module's name. -/
inductive Value where
  | num (n : Int)
  | str (s : String)
  | sym (s : String)
  | bool (b : Bool)
  | nil
  | list (xs : List Value)
  | fn (f : Fn)
  | module (m : YexModule)
  | tagged (moduleName : String) (tag : String) (payload : List Value)

/-- A compiled function: its bytecode body and arity (struct `Fn` of the vm
crate; the `args` field of partially applied functions is always empty at
compile time and is omitted). -/
inductive Fn where
  | mk (body : List OpCodeMetadata) (arity : Nat)

/-- A module: a name and a field table (struct `YexModule` of the vm crate;
the field table is an `EnvTable`, modelled as an ordered association list). -/
inductive YexModule where
  | mk (name : String) (fields : List (String × Value))
end

namespace Fn

/-- The bytecode body of a function. -/
def body : Fn → List OpCodeMetadata
  | .mk b _ => b

/-- The arity of a function. -/
def arity : Fn → Nat
  | .mk _ a => a

end Fn

namespace YexModule

/-- The name of a module. -/
def name : YexModule → String
  | .mk n _ => n

/-- The field table of a module. -/
def fields : YexModule → List (String × Value)
  | .mk _ f => f

end YexModule

namespace Value

/-- Whether a value is a module (`matches!(const_, Value::Module(_))` in
`emit_const`). -/
def isModule : Value → Bool
  | .module _ => true
  | _ => false

/-- Conversion of an AST literal into a constant-pool value
(`lit.clone().into()` in `emit_lit`). -/
def ofLiteral : Literal → Value
  | .num n => .num n
  | .str s => .str s
  | .sym s => .sym s
  | .bool b => .bool b
  | .nilL => .nil
end Value

mutual
/-- Modelled from the spec: structural equality of values (spec section 3:
two values compare equal iff structurally equal).  This is the `PartialEq`
used by the constant pool's deduplicating search; `emit_const` never reaches
this comparison for module values, so the identity comparison of modules is
not observable there. -/
def valueBEq : Value → Value → Bool
  | .num a, .num b => a == b
  | .str a, .str b => a == b
  | .sym a, .sym b => a == b
  | .bool a, .bool b => a == b
  | .nil, .nil => true
  | .list xs, .list ys => valueListBEq xs ys
  | .fn f, .fn g => fnBEq f g
  | .module m, .module n => moduleBEq m n
  | .tagged n t p, .tagged n2 t2 p2 => n == n2 && t == t2 && valueListBEq p p2
  | _, _ => false
  termination_by structural a _ => a

/-- Elementwise structural equality of value lists. -/
def valueListBEq : List Value → List Value → Bool
  | [], [] => true
  | x :: xs, y :: ys => valueBEq x y && valueListBEq xs ys
  | _, _ => false
  termination_by structural a _ => a

/-- Structural equality of compiled functions. -/
def fnBEq : Fn → Fn → Bool
  | .mk b a, .mk b2 a2 => b == b2 && a == a2

/-- Structural equality of modules. -/
def moduleBEq : YexModule → YexModule → Bool
  | .mk n f, .mk n2 f2 => n == n2 && fieldsBEq f f2
  termination_by structural a _ => a

/-- Elementwise structural equality of field tables. -/
def fieldsBEq : List (String × Value) → List (String × Value) → Bool
  | [], [] => true
  | (k, v) :: xs, (k2, v2) :: ys => k == k2 && valueBEq v v2 && fieldsBEq xs ys
  | _, _ => false
  termination_by structural a _ => a
end

/-- Modelled from the spec: comparison of an AST literal against a pool value
(the `Literal == Value` comparison in `emit_lit`); structural, via the
literal's value conversion. -/
def litBEq (l : Literal) (v : Value) : Bool :=
  valueBEq (Value.ofLiteral l) v

/-- Lookup in an association list with string keys; models `HashMap::get`. -/
def alookup {α : Type} : List (String × α) → String → Option α
  | [], _ => none
  | (k, v) :: rest, key => if k = key then some v else alookup rest key

/-- Removal of a key from an association list; models `HashMap::remove`
(keys are unique, so removing the first occurrence removes the entry). -/
def aremove {α : Type} : List (String × α) → String → List (String × α)
  | [], _ => []
  | (k, v) :: rest, key => if k = key then rest else (k, v) :: aremove rest key

/-- Modelled from the spec: `EnvTable::insert` (field tables of modules);
inserts or replaces the binding for a key. -/
def tableInsert : List (String × Value) → String → Value → List (String × Value)
  | [], key, val => [(key, val)]
  | (k, v) :: rest, key, val =>
      if k = key then (k, val) :: rest else (k, v) :: tableInsert rest key val

/-- The last dot-separated segment of a name, accumulator form
(`name.as_str().split('.').last().unwrap()` in `type_`). -/
def lastSegAux : List Char → List Char → List Char
  | [], acc => acc
  | c :: cs, acc => if c = '.' then lastSegAux cs [] else lastSegAux cs (acc ++ [c])

/-- The last dot-separated segment of a name. -/
def lastSegment (s : String) : String :=
  String.mk (lastSegAux s.data [])

/-- Joining a path with dots (`path.iter().map(..).join(".")` in
`match_pattern`, `Pattern::Variant`). -/
def joinPath : List String → String
  | [] => ""
  | [s] => s
  | s :: rest => s ++ "." ++ joinPath rest

/-- A compilation scope (struct `Scope`): the opcode buffer under
construction and the map from bound names to dense local slot indices.  The
`assigns` field is a ghost, write-only log recording each slot index the
moment `emit_save` assigns it to a fresh name; it exists purely to state the
slot-index invariants and cannot influence compilation. -/
structure Scope where
  opcodes : List OpCodeMetadata
  locals : List (String × Nat)
  assigns : List Nat

/-- A fresh scope (`Scope::new`, via `Default`). -/
def Scope.new : Scope := ⟨[], [], []⟩

/-- The compiler state (struct `Compiler`): the stack of scopes (head is the
current scope), the shared constant pool, and the fresh-name counter. -/
structure CompilerState where
  scope_stack : List Scope
  constants : List Value
  unique_counter : Nat

namespace Compiler

/-- The current scope (`Compiler::scope`, `scope_mut`); the source unwraps,
and the scope stack is never empty during emission, so the default is never
observable from the entry points below. -/
def curScope (σ : CompilerState) : Scope :=
  σ.scope_stack.headD Scope.new

/-- Applies an update to the current scope. -/
def withScope (f : Scope → Scope) (σ : CompilerState) : CompilerState :=
  match σ.scope_stack with
  | [] => σ
  | s :: rest => { σ with scope_stack := f s :: rest }

/-- The length of the current opcode buffer, used as the address of the next
instruction (`self.scope().opcodes.len()`). -/
def ip (σ : CompilerState) : Nat :=
  (curScope σ).opcodes.length

/-- Appends one opcode with its location (`Compiler::emit_op`). -/
def emit_op (op : OpCode) (loc : Location) (σ : CompilerState) : CompilerState :=
  withScope (fun s => { s with opcodes := s.opcodes ++ [⟨op, loc.line, loc.column⟩] }) σ

/-- Appends a sequence of opcodes (`Compiler::emit_ops`). -/
def emit_ops (ops : List OpCode) (loc : Location) (σ : CompilerState) : CompilerState :=
  ops.foldl (fun σ op => emit_op op loc σ) σ

/-- Rewrites the opcode at a patch site, keeping its location
(`self.scope_mut().opcodes[i].opcode = op`); out-of-range sites would panic in
the source and never occur. -/
def patchOp (i : Nat) (op : OpCode) (σ : CompilerState) : CompilerState :=
  withScope
    (fun s =>
      match s.opcodes.get? i with
      | some m => { s with opcodes := s.opcodes.set i { m with opcode := op } }
      | none => s)
    σ

/-- Pushes a literal constant, reusing a structurally equal pool entry when
one exists (`Compiler::emit_lit`). -/
def emit_lit (lit : Literal) (loc : Location) (σ : CompilerState) : CompilerState :=
  match σ.constants.findIdx? (fun c => litBEq lit c) with
  | some idx => emit_op (.push idx) loc σ
  | none =>
      let σ := { σ with constants := σ.constants ++ [Value.ofLiteral lit] }
      emit_op (.push (σ.constants.length - 1)) loc σ

/-- Interns a constant and pushes it: module values are always appended,
other values reuse a structurally equal entry when one exists
(`Compiler::emit_const`).  Returns the pool index. -/
def emit_const (v : Value) (loc : Location) (σ : CompilerState) : Nat × CompilerState :=
  match if v.isModule then none else σ.constants.findIdx? (fun c => valueBEq c v) with
  | some idx => (idx, emit_op (.push idx) loc σ)
  | none =>
      let pos := σ.constants.length
      let σ := { σ with constants := σ.constants ++ [v] }
      (pos, emit_op (.push pos) loc σ)

/-- Binds a name to a local slot and emits `Save`: an absent name is assigned
the next index, the current size of the local map; a present name keeps its
index (`Compiler::emit_save`, `entry(bind).or_insert(len)`).  A fresh
assignment is recorded in the ghost `assigns` log. -/
def emit_save (bind : String) (loc : Location) (σ : CompilerState) : CompilerState :=
  let s := curScope σ
  let len := s.locals.length
  match alookup s.locals bind with
  | some index => emit_op (.save index) loc σ
  | none =>
      emit_op (.save len) loc
        (withScope
          (fun s => { s with locals := s.locals ++ [(bind, len)], assigns := s.assigns ++ [len] })
          σ)

/-- Generates a fresh synthetic name of the form `#N` and saves the top of
the stack into it (`Compiler::emit_unique`). -/
def emit_unique (loc : Location) (σ : CompilerState) : String × CompilerState :=
  let n := σ.unique_counter + 1
  let σ := { σ with unique_counter := n }
  let name := "#" ++ toString n
  (name, emit_save name loc σ)

/-- Emits a load of a name: `Load` for a name in the current scope's locals,
`Loag` (global load) otherwise (`Compiler::emit_load`). -/
def emit_load (bind : String) (loc : Location) (σ : CompilerState) : CompilerState :=
  match alookup (curScope σ).locals bind with
  | some offset => emit_op (.load offset) loc σ
  | none => emit_op (.loag bind) loc σ

/-- Removes a list of declarations from the current scope's local map (the
removal loops of the `Let` arm and of `match_arm`). -/
def removeDecls (decls : List String) (σ : CompilerState) : CompilerState :=
  decls.foldl (fun σ d => withScope (fun s => { s with locals := aremove s.locals d }) σ) σ

/-- Patches each recorded fail site to a conditional jump to the current
instruction pointer (the `for offset in fix_stack` loops; the ip does not
change while patching). -/
def patchJmfSites (sites : List Nat) (σ : CompilerState) : CompilerState :=
  sites.foldl (fun σ site => patchOp site (.jmf (ip σ)) σ) σ

/-- Pushes a fresh scope onto the scope stack. -/
def pushScope (σ : CompilerState) : CompilerState :=
  { σ with scope_stack := Scope.new :: σ.scope_stack }

/-- Pops the current scope, returning it (`scope_stack.pop().unwrap()`); the
source unwraps and the stack is never empty at pop sites. -/
def popScope (σ : CompilerState) : Scope × CompilerState :=
  match σ.scope_stack with
  | [] => (Scope.new, σ)
  | s :: rest => (s, { σ with scope_stack := rest })

end Compiler

/-- Modelled from the spec: binary operators of the AST (`BinOp`; the parser
AST is not among the provided sources).  `and` and `or` are short-circuited
by dedicated arms of the expression emitter. -/
inductive BinOp where
  | and
  | or
  | add
  | sub
  | mul
  | div
  | eqB
  | neB
  deriving DecidableEq, Repr

/-- Modelled from the spec: the opcode sequence of a non-short-circuit binary
operator (`(*op).into()`; spec section 4.5: some operators map to several
opcodes, inequality is `Eq; Not`).  `and`/`or` never reach this conversion. -/
def binOpOps : BinOp → List OpCode
  | .and => []
  | .or => []
  | .add => [.add]
  | .sub => [.sub]
  | .mul => [.mul]
  | .div => [.div]
  | .eqB => [.eq]
  | .neB => [.eq, .not]

/-- Modelled from the spec: unary operators of the AST (`UnOp`). -/
inductive UnOp where
  | notU
  | negU
  deriving DecidableEq, Repr

/-- Modelled from the spec: the opcode sequence of a unary operator. -/
def unOpOps : UnOp → List OpCode
  | .notU => [.not]
  | .negU => [.neg]

/-- Patterns of the AST (`Pattern`; modelled from the spec, section 3: the
parser AST is not among the provided sources, but the compiler's
`match_pattern` exhibits every variant).  `listP` is the cons pattern
`head :: tail`. -/
inductive Pattern where
  | lit (l : Literal)
  | id (s : String)
  | variant (path : List String) (args : List Pattern)
  | tuple (args : List Pattern)
  | listP (head tail : Pattern)
  | emptyList

mutual
/-- An expression: a kind and a source location (`Expr`; modelled from the
spec, the compiler's `expr` exhibits every variant). -/
inductive Expr where
  | mk (kind : ExprKind) (location : Location)

/-- Expression kinds (`ExprKind`; modelled from the spec, the compiler's
`expr` exhibits every variant).  `defE` is the expression-level `def .. in`
binding (its `Bind` struct is flattened to name and value). -/
inductive ExprKind where
  | lit (l : Literal)
  | lambda (args : List Pattern) (body : Expr)
  | app (callee : Expr) (args : List Expr) (tail : Bool)
  | var (name : String)
  | ifE (cond then_ else_ : Expr)
  | matchE (scrutinee : Expr) (arms : List MatchArm)
  | letE (bind : Pattern) (value : Expr) (body : Expr)
  | defE (bind : String) (value : Expr) (body : Expr)
  | binary (left : Expr) (op : BinOp) (right : Expr)
  | listE (xs : List Expr)
  | cons (head tail : Expr)
  | unOp (op : UnOp) (right : Expr)
  | methodRef (ty : Expr) (method : String)
  | tryE (body : Expr) (bind : String) (rescue : Expr)
  | tuple (xs : List Expr)

/-- A match arm (`MatchArm`): pattern, optional guard, body, location. -/
inductive MatchArm where
  | mk (cond : Pattern) (guard : Option Expr) (body : Expr) (location : Location)
end

namespace MatchArm

/-- The pattern of an arm. -/
def cond : MatchArm → Pattern
  | .mk c _ _ _ => c

/-- The optional guard of an arm. -/
def guard : MatchArm → Option Expr
  | .mk _ g _ _ => g

/-- The body of an arm. -/
def body : MatchArm → Expr
  | .mk _ _ b _ => b

/-- The location of an arm. -/
def location : MatchArm → Location
  | .mk _ _ _ l => l

end MatchArm

/-- A top-level `def` binding, also used as a type-declaration member
(`Def`; modelled from the spec; fields other than the name and value are not
used by the compiler). -/
structure Def where
  bind : String
  value : Expr

/-- Statement kinds (`StmtKind`; modelled from the spec): top-level `def`,
top-level `let`, and type declarations with their variants (name and
constructor argument names) and members. -/
inductive StmtKind where
  | defS (d : Def)
  | letS (bind : Pattern) (value : Expr)
  | typeS (name : String) (variants : List (String × List String)) (members : List Def)

/-- A statement: a kind and a source location (`Stmt`). -/
structure Stmt where
  kind : StmtKind
  location : Location

namespace Compiler


mutual
/-- Compiles a pattern against the value on top of the VM stack
(`Compiler::match_pattern`).  Returns the names bound on success and the
patch sites of the `Jmf(0)` fail jumps. -/
def match_pattern (pattern : Pattern) (global : Bool) (loc : Location)
    (σ : CompilerState) : (List String × List Nat) × CompilerState :=
  match pattern with
  | .lit lt =>
      let σ1 := emit_lit lt loc σ
      let σ2 := emit_op .eq loc σ1
      let label := ip σ2
      let σ3 := emit_op (.jmf 0) loc σ2
      (([], [label]), σ3)
  | .id id =>
      if id ≠ "_" then
        let σ1 := if global then emit_op (.savg id) loc σ else emit_save id loc σ
        (([id], []), σ1)
      else
        (([], []), emit_op .pop loc σ)
  | .variant path args =>
      let name := joinPath path
      let σ1 := emit_op .dup loc σ
      let tσ := emit_unique loc σ1
      let tmp := tσ.1
      let σ3 := emit_op .tagOf loc tσ.2
      let σ4 := (emit_const (.sym name) loc σ3).2
      let σ5 := emit_op .eq loc σ4
      let label1 := ip σ5
      let σ6 := emit_op (.jmf 0) loc σ5
      let σ7 := emit_load tmp loc σ6
      let σ8 := emit_op .tagTup loc σ7
      let σ9 := emit_op .len loc σ8
      let σ10 := emit_lit (.num args.length) loc σ9
      let σ11 := emit_op .eq loc σ10
      let label2 := ip σ11
      let σ12 := emit_op (.jmf 0) loc σ11
      let r := matchArgs tmp true global loc 0 args σ12
      ((r.1.1, label1 :: label2 :: r.1.2), r.2)
  | .tuple args =>
      let tσ := emit_unique loc σ
      let tmp := tσ.1
      let σ2 := emit_load tmp loc tσ.2
      let σ3 := emit_op .len loc σ2
      let σ4 := (emit_const (.num args.length) loc σ3).2
      let σ5 := emit_op .eq loc σ4
      let label := ip σ5
      let σ6 := emit_op (.jmf 0) loc σ5
      let r := matchArgs tmp false global loc 0 args σ6
      ((r.1.1, label :: r.1.2), r.2)
  | .listP head tail =>
      let tσ := emit_unique loc σ
      let tmp := tσ.1
      let σ2 := emit_load tmp loc tσ.2
      let σ3 := emit_op (.loag "List") loc σ2
      let σ4 := emit_op (.ref "head") loc σ3
      let σ5 := emit_op (.call 1) loc σ4
      let r1 := match_pattern head global loc σ5
      let σ7 := emit_load tmp loc r1.2
      let σ8 := emit_op (.loag "List") loc σ7
      let σ9 := emit_op (.ref "tail") loc σ8
      let σ10 := emit_op (.call 1) loc σ9
      let r2 := match_pattern tail global loc σ10
      ((r1.1.1 ++ r2.1.1, r1.1.2 ++ r2.1.2), r2.2)
  | .emptyList =>
      let σ1 := (emit_const (.list []) loc σ).2
      let σ2 := emit_op .eq loc σ1
      let offset := ip σ2
      let σ3 := emit_op (.jmf 0) loc σ2
      (([], [offset]), σ3)
  termination_by structural pattern

/-- Compiles the sub-patterns of a `Variant` or `Tuple` pattern: for each
argument, reload the temporary, extract the component (`TagTup; TupGet(i)`
for variants, `TupGet(i)` for tuples) and recurse, accumulating declarations
and fail sites in order. -/
def matchArgs (tmp : String) (tagtup : Bool) (global : Bool) (loc : Location)
    (idx : Nat) (args : List Pattern) (σ : CompilerState) :
    (List String × List Nat) × CompilerState :=
  match args with
  | [] => (([], []), σ)
  | p :: ps =>
      let σ1 := emit_load tmp loc σ
      let σ2 := if tagtup then emit_op .tagTup loc σ1 else σ1
      let σ3 := emit_op (.tupGet idx) loc σ2
      let r := match_pattern p global loc σ3
      let r2 := matchArgs tmp tagtup global loc (idx + 1) ps r.2
      ((r.1.1 ++ r2.1.1, r.1.2 ++ r2.1.2), r2.2)
  termination_by structural args
end

/-- The argument-pattern loop of `lambda_expr`: compiles each argument
pattern, accumulating the fail sites (declarations are dropped). -/
def lambdaArgs : List Pattern → Location → CompilerState → List Nat × CompilerState
  | [], _, σ => ([], σ)
  | p :: ps, loc, σ =>
      let r := match_pattern p false loc σ
      let rest := lambdaArgs ps loc r.2
      (r.1.2 ++ rest.1, rest.2)

mutual
/-- Compiles an expression, leaving its value on the VM stack
(`Compiler::expr`).  The bodies of the source's helper methods
`lambda_expr`, `if_expr` and `match_expr` are inlined into the
corresponding arms (Lean's structural termination requires the recursion to
follow one argument); the standalone definitions below restate them and are
definitionally equal to these arms. -/
def expr : Expr → CompilerState → CompilerState
  | .mk kind loc, σ =>
    match kind with
    | .lit l => emit_lit l loc σ
    | .lambda args body =>
        let σ0 := pushScope σ
        let fx := lambdaArgs args loc σ0
        let σ2 := expr body fx.2
        let jmpLabel := ip σ2
        let σ3 := emit_op (.jmp 0) loc σ2
        let σ4 := patchJmfSites fx.1 σ3
        let σ5 := (emit_const (.str "No match of rhs value") loc σ4).2
        let σ6 := (emit_const (.sym "MatchError") loc σ5).2
        let σ7 := emit_op (.loag "raise") loc σ6
        let σ8 := emit_op (.call 2) loc σ7
        let σ9 := patchOp jmpLabel (.jmp (ip σ8)) σ8
        let sσ := popScope σ9
        let func := Fn.mk sσ.1.opcodes args.length
        (emit_const (.fn func) loc sσ.2).2
    | .app callee args tl =>
        let σ1 := exprList args σ
        let σ2 := if args.length > 1 then emit_op (.revN args.length) loc σ1 else σ1
        let σ3 := expr callee σ2
        if tl then emit_op (.tcall args.length) loc σ3
        else emit_op (.call args.length) loc σ3
    | .var name =>
        match alookup (curScope σ).locals name with
        | some idx => emit_op (.load idx) loc σ
        | none => emit_op (.loag name) loc σ
    | .ifE cond then_ else_ =>
        let σ1 := expr cond σ
        let thenLabel := ip σ1
        let σ2 := emit_op (.jmf 0) loc σ1
        let σ3 := expr then_ σ2
        let elseLabel := ip σ3
        let σ4 := emit_op (.jmp 0) loc σ3
        let σ5 := patchOp thenLabel (.jmf (ip σ4)) σ4
        let σ6 := expr else_ σ5
        patchOp elseLabel (.jmp (ip σ6)) σ6
    | .matchE scrutinee arms =>
        let σ1 := expr scrutinee σ
        let tσ := emit_unique loc σ1
        let σ3 := (emit_const (.str "Starting match") loc tσ.2).2
        let σ4 := emit_op .pop loc σ3
        let jσ := armLoop tσ.1 loc arms σ4
        let σ6 := (emit_const (.str "Couldn\u0027t match any clause") loc jσ.2).2
        let σ7 := (emit_const (.sym "MatchError") loc σ6).2
        let σ8 := emit_op (.loag "raise") loc σ7
        let σ9 := emit_op (.call 2) loc σ8
        let ipEnd := ip σ9
        jσ.1.foldl (fun σ j => patchOp j (.jmp ipEnd) σ) σ9
    | .letE bind value body =>
        let σ1 := expr value σ
        let r := match_pattern bind false loc σ1
        let σ3 := expr body r.2
        let σ4 := removeDecls r.1.1 σ3
        let jmpLabel := ip σ4
        let σ5 := emit_op (.jmp 0) loc σ4
        let σ6 := patchJmfSites r.1.2 σ5
        let σ7 := (emit_const (.str "No match of rhs value") loc σ6).2
        let σ8 := (emit_const (.sym "MatchError") loc σ7).2
        let σ9 := emit_op (.loag "raise") loc σ8
        let σ10 := emit_op (.call 2) loc σ9
        patchOp jmpLabel (.jmp (ip σ10)) σ10
    | .defE bind value body =>
        let σ1 := expr value σ
        let σ2 := emit_save bind loc σ1
        expr body σ2
    | .binary left op right =>
        match op with
        | .and =>
            let σ1 := expr left σ
            let σ2 := emit_op .dup loc σ1
            let thenLabel := ip σ2
            let σ3 := emit_op (.jmf 0) loc σ2
            let σ4 := emit_op .pop loc σ3
            let σ5 := expr right σ4
            patchOp thenLabel (.jmf (ip σ5)) σ5
        | .or =>
            let σ1 := expr left σ
            let σ2 := emit_op .dup loc σ1
            let σ3 := emit_op .not loc σ2
            let thenLabel := ip σ3
            let σ4 := emit_op (.jmf 0) loc σ3
            let σ5 := emit_op .pop loc σ4
            let σ6 := expr right σ5
            patchOp thenLabel (.jmf (ip σ6)) σ6
        | op =>
            let σ1 := expr left σ
            let σ2 := expr right σ1
            emit_ops (binOpOps op) loc σ2
    | .listE xs =>
        let σ1 := exprList xs σ
        let σ2 := (emit_const (.list []) loc σ1).2
        emit_ops (List.replicate xs.length .prep) loc σ2
    | .cons head tail =>
        let σ1 := expr head σ
        let σ2 := expr tail σ1
        emit_op .prep loc σ2
    | .unOp op right =>
        let σ1 := expr right σ
        emit_ops (unOpOps op) loc σ1
    | .methodRef ty method =>
        let σ1 := expr ty σ
        emit_op (.ref method) loc σ1
    | .tryE body bind rescue =>
        let tryLabel := ip σ
        let σ1 := emit_op (.tryC 0) loc σ
        let σ2 := expr body σ1
        let σ3 := emit_op .endTry loc σ2
        let endLabel := ip σ3
        let σ4 := emit_op (.jmp 0) loc σ3
        let σ5 := patchOp tryLabel (.tryC (ip σ4)) σ4
        let σ6 := emit_op .pop loc σ5
        let σ7 := emit_save bind loc σ6
        let σ8 := expr rescue σ7
        patchOp endLabel (.jmp (ip σ8)) σ8
    | .tuple xs =>
        let σ1 := exprListRev xs σ
        emit_op (.tup xs.length) loc σ1
  termination_by structural e _ => e

/-- Compiles a list of expressions in source order (the argument and element
loops of the `App` and `List` arms). -/
def exprList : List Expr → CompilerState → CompilerState
  | [], σ => σ
  | e :: es, σ => exprList es (expr e σ)
  termination_by structural es _ => es

/-- Compiles a list of expressions in reverse source order
(`xs.iter().rev()` of the `Tuple` arm). -/
def exprListRev : List Expr → CompilerState → CompilerState
  | [], σ => σ
  | e :: es, σ => expr e (exprListRev es σ)
  termination_by structural es _ => es

/-- The arm loop of `Compiler::match_expr`: reloads the scrutinee temporary
before each arm and compiles the arm (the body of `Compiler::match_arm`,
inlined here and restated standalone below), collecting the arms' end-jump
patch sites. -/
def armLoop (tmp : String) (loc : Location) :
    List MatchArm → CompilerState → List Nat × CompilerState
  | [], σ => ([], σ)
  | .mk cond guard body armLoc :: rest, σ =>
      let σ1 := emit_load tmp loc σ
      let r := match_pattern cond false armLoc σ1
      let gσ :=
        match guard with
        | some g =>
            let σg := expr g r.2
            let label := ip σg
            ((some label : Option Nat), emit_op (.jmf 0) armLoc σg)
        | none => ((none : Option Nat), r.2)
      let σc := expr body gσ.2
      let σd := removeDecls r.1.1 σc
      let jmpLabel := ip σd
      let σe := emit_op (.jmp 0) armLoc σd
      let σf := patchJmfSites r.1.2 σe
      let σh :=
        match gσ.1 with
        | some label => patchOp label (.jmf (ip σf)) σf
        | none => σf
      let js := armLoop tmp loc rest σh
      (jmpLabel :: js.1, js.2)
  termination_by structural arms _ => arms
end

/-- Compiles a lambda in a fresh scope (`Compiler::lambda_expr`): argument
patterns, body, the jump over the `MatchError` tail, the fail-site patches;
pops the scope and wraps its buffer into a function value.  This standalone
form of the code inlined in the `lambda` arm of `expr` is what `type_` calls
for type-declaration members. -/
def lambda_expr (args : List Pattern) (body : Expr) (loc : Location)
    (σ : CompilerState) : Fn × CompilerState :=
  let σ0 := pushScope σ
  let fx := lambdaArgs args loc σ0
  let σ2 := expr body fx.2
  let jmpLabel := ip σ2
  let σ3 := emit_op (.jmp 0) loc σ2
  let σ4 := patchJmfSites fx.1 σ3
  let σ5 := (emit_const (.str "No match of rhs value") loc σ4).2
  let σ6 := (emit_const (.sym "MatchError") loc σ5).2
  let σ7 := emit_op (.loag "raise") loc σ6
  let σ8 := emit_op (.call 2) loc σ7
  let σ9 := patchOp jmpLabel (.jmp (ip σ8)) σ8
  let sσ := popScope σ9
  (Fn.mk sσ.1.opcodes args.length, sσ.2)

/-- Compiles an `if` expression with forward-jump patching
(`Compiler::if_expr`); standalone form of the `ifE` arm of `expr`. -/
def if_expr (cond then_ else_ : Expr) (loc : Location) (σ : CompilerState) :
    CompilerState :=
  let σ1 := expr cond σ
  let thenLabel := ip σ1
  let σ2 := emit_op (.jmf 0) loc σ1
  let σ3 := expr then_ σ2
  let elseLabel := ip σ3
  let σ4 := emit_op (.jmp 0) loc σ3
  let σ5 := patchOp thenLabel (.jmf (ip σ4)) σ4
  let σ6 := expr else_ σ5
  patchOp elseLabel (.jmp (ip σ6)) σ6

/-- Compiles one match arm (`Compiler::match_arm`): pattern, optional guard,
body; removes the arm's declarations; emits the end jump whose patch site is
returned; patches the fail sites and guard site to the next arm.  Standalone
form of the code inlined in `armLoop`. -/
def match_arm (arm : MatchArm) (loc : Location) (σ : CompilerState) :
    Nat × CompilerState :=
  let r := match_pattern arm.cond false loc σ
  let gσ :=
    match arm.guard with
    | some g =>
        let σg := expr g r.2
        let label := ip σg
        ((some label : Option Nat), emit_op (.jmf 0) loc σg)
    | none => ((none : Option Nat), r.2)
  let σc := expr arm.body gσ.2
  let σd := removeDecls r.1.1 σc
  let jmpLabel := ip σd
  let σe := emit_op (.jmp 0) loc σd
  let σf := patchJmfSites r.1.2 σe
  let σh :=
    match gσ.1 with
    | some label => patchOp label (.jmf (ip σf)) σf
    | none => σf
  (jmpLabel, σh)

/-- Compiles a `match` expression (`Compiler::match_expr`; the name
`match_expr` is reserved in Lean, hence the trailing underscore): scrutinee,
fresh temporary, the arms, the no-clause `MatchError` raise, and the end
patches of every arm's jump.  Standalone form of the `matchE` arm of
`expr`. -/
def match_expr_ (cond : Expr) (arms : List MatchArm) (loc : Location)
    (σ : CompilerState) : CompilerState :=
  let σ1 := expr cond σ
  let tσ := emit_unique loc σ1
  let σ3 := (emit_const (.str "Starting match") loc tσ.2).2
  let σ4 := emit_op .pop loc σ3
  let jσ := armLoop tσ.1 loc arms σ4
  let σ6 := (emit_const (.str "Couldn\u0027t match any clause") loc jσ.2).2
  let σ7 := (emit_const (.sym "MatchError") loc σ6).2
  let σ8 := emit_op (.loag "raise") loc σ7
  let σ9 := emit_op (.call 2) loc σ8
  let ipEnd := ip σ9
  jσ.1.foldl (fun σ j => patchOp j (.jmp ipEnd) σ) σ9

/-- The member phase of `Compiler::type_`: compiles each member's lambda and
inserts it into the field table (the source's `unreachable!()` for
non-lambda members is modelled by skipping the member). -/
def typeMembers (loc : Location) :
    List Def → List (String × Value) → CompilerState →
    List (String × Value) × CompilerState
  | [], tbl, σ => (tbl, σ)
  | m :: rest, tbl, σ =>
      match m.value with
      | .mk (.lambda args body) _ =>
          let fσ := lambda_expr args body loc σ
          typeMembers loc rest (tableInsert tbl m.bind (.fn fσ.1)) fσ.2
      | _ => typeMembers loc rest tbl σ

/-- The variant phase of `Compiler::type_`: nullary variants are collected
for later patching; each non-nullary variant gets a constructor compiled in
a fresh scope (`Tup(n); Push(index); Tag(name)`) and inserted under the last
path segment of its name. -/
def typeVariants (index : Nat) (loc : Location) :
    List (String × List String) → List (String × String) →
    List (String × Value) → CompilerState →
    List (String × String) × List (String × Value) × CompilerState
  | [], pl, tbl, σ => (pl, tbl, σ)
  | v :: rest, pl, tbl, σ =>
      if v.2.isEmpty then
        typeVariants index loc rest (pl ++ [(v.1, lastSegment v.1)]) tbl σ
      else
        let σa := pushScope σ
        let σb := emit_op (.tup v.2.length) loc σa
        let σc := emit_op (.push index) loc σb
        let σd := emit_op (.tag v.1) loc σc
        let sσ := popScope σd
        let ctor := Fn.mk sσ.1.opcodes v.2.length
        typeVariants index loc rest pl
          (tableInsert tbl (lastSegment v.1) (.fn ctor)) sσ.2

/-- Compiles a type declaration (`Compiler::type_`): member lambdas into the
field table, the reserved placeholder pool slot, variant constructors (a
fresh scope emitting `Tup(n); Push(index); Tag(name)` for each non-nullary
variant), the nullary-variant tagged values, the finalized module stored at
the reserved index, and the trailing `Push(index); Savg(decl)`.  The
source's `unreachable!()` for non-lambda members is modelled by skipping the
member; the reference cycle of the nullary `Tagged` values is represented by
the module's name. -/
def type_ (decl : String) (variants : List (String × List String))
    (members : List Def) (loc : Location) (σ : CompilerState) : CompilerState :=
  let tblσ := typeMembers loc members [] σ
  let index := tblσ.2.constants.length
  let σ2 := { tblσ.2 with constants := tblσ.2.constants ++ [Value.module (.mk "" [])] }
  let pvσ := typeVariants index loc variants [] tblσ.1 σ2
  let fields :=
    pvσ.1.foldl (fun tbl pe => tableInsert tbl pe.2 (.tagged decl pe.1 [])) pvσ.2.1
  let σ3 := pvσ.2.2
  let σ4 := { σ3 with constants := σ3.constants.set index (Value.module (.mk decl fields)) }
  let σ5 := emit_op (.push index) loc σ4
  emit_op (.savg decl) loc σ5

/-- Compiles one top-level statement (`Compiler::stmt`); resets the
fresh-name counter afterwards. -/
def stmt (node : Stmt) (σ : CompilerState) : CompilerState :=
  let loc := node.location
  let σF :=
    match node.kind with
    | .defS d =>
        let σ1 := expr d.value σ
        emit_op (.savg d.bind) loc σ1
    | .letS bind value =>
        let σ1 := expr value σ
        let r := match_pattern bind true loc σ1
        let jmpLabel := ip r.2
        let σ3 := emit_op (.jmp 0) loc r.2
        let σ4 := patchJmfSites r.1.2 σ3
        let σ5 := (emit_const (.str "No match of rhs value") loc σ4).2
        let σ6 := (emit_const (.sym "MatchError") loc σ5).2
        let σ7 := emit_op (.loag "raise") loc σ6
        let σ8 := emit_op (.call 2) loc σ7
        patchOp jmpLabel (.jmp (ip σ8)) σ8
    | .typeS name variants members => type_ name variants members loc σ
  { σF with unique_counter := 0 }

/-- The initial compiler state (`Compiler::default()` with the outer scope
pushed). -/
def initState : CompilerState := ⟨[Scope.new], [], 0⟩

/-- Compiles a single expression (`Compiler::compile_expr`): pushes the outer
scope, compiles, and returns the buffer and the pool. -/
def compile_expr (e : Expr) : List OpCodeMetadata × List Value :=
  let σ := expr e initState
  ((curScope σ).opcodes, σ.constants)

/-- Compiles a statement list (`Compiler::compile_stmts`). -/
def compile_stmts (stmts : List Stmt) : List OpCodeMetadata × List Value :=
  let σ := stmts.foldl (fun σ s => stmt s σ) initState
  ((curScope σ).opcodes, σ.constants)

/-- The final compiler state after compiling a single expression; used to
observe the scope's local map and ghost assignment log. -/
def compileExprState (e : Expr) : CompilerState :=
  expr e initState

end Compiler


/-! The `List` prelude of the virtual machine (`src/vm/src/prelude/list.rs`).
Only `head` is needed by the claims. -/

namespace Vm

/-- Modelled from the spec: runtime constants of the vm (`Constant`); only
the shape (list versus non-list) and the values `head` can produce matter
here, so the payload of the remaining variants is flattened. -/
inductive Constant where
  | num (n : Int)
  | str (s : String)
  | sym (s : String)
  | bool (b : Bool)
  | nil
  | list (xs : List Constant)
  | table
  | fn

/-- The `head` prelude function (`src/vm/src/prelude/list.rs`, `head`): for a
list, its first element, or `nil` when the list is empty; for any other
value, an error (`err_tuple!` aborts the native call with an error message;
modelled from the spec as an `Except` error since the macro's definition is
not among the provided sources). -/
def head (arg : Constant) : Except String Constant :=
  match arg with
  | .list xs =>
      match xs with
      | x :: _ => .ok x
      | [] => .ok .nil
  | _ => .error "head() expected a list"

end Vm

/-! ### Concrete programs used by the claims -/

namespace Compiler

/-- A shared concrete location for the example programs. -/
def l0 : Location := ⟨1, 1⟩

/-- The expression `let x = 1 in x + 2` of claim C2. -/
def c2Expr : Expr :=
  .mk (.letE (.id "x") (.mk (.lit (.num 1)) l0)
        (.mk (.binary (.mk (.var "x") l0) .add (.mk (.lit (.num 2)) l0)) l0)) l0

/-- First arm of the claim C1 example: the pattern `(a, (b))` (a tuple
pattern with a nested tuple pattern), body `0`. -/
def c1Arm1 : MatchArm :=
  .mk (.tuple [.id "a", .tuple [.id "b"]]) none (.mk (.lit (.num 0)) l0) l0

/-- Second arm of the claim C1 example: the pattern `c`, body `c`. -/
def c1Arm2 : MatchArm := .mk (.id "c") none (.mk (.var "c") l0) l0

/-- The claim C1 example: a match whose first arm binds and then releases
tuple-pattern declarations, after which the second arm's binding reuses a
slot index. -/
def c1Expr : Expr := .mk (.matchE (.mk (.lit (.num 0)) l0) [c1Arm1, c1Arm2]) l0

/-- The try/rescue part of the claim C9 example:
`try (let x = 2 in x) rescue e => 3`. -/
def c9Try : Expr :=
  .mk (.tryE (.mk (.letE (.id "x") (.mk (.lit (.num 2)) l0) (.mk (.var "x") l0)) l0)
        "e" (.mk (.lit (.num 3)) l0)) l0

/-- The claim C9 example: `def x = 1 in (try (let x = 2 in x) rescue e => 3)`;
the local `x` exists when the try emission starts and is removed by it. -/
def c9Expr : Expr := .mk (.defE "x" (.mk (.lit (.num 1)) l0) c9Try) l0

/-- The compiler state just before the try emission of the claim C9 example:
the value `1` has been compiled and saved into the local `x`. -/
def c9PreState : CompilerState :=
  emit_save "x" l0 (expr (.mk (.lit (.num 1)) l0) initState)

/-- The claim C3 example: `type T = | A | B(x)` with one member
`m = fn y = y`. -/
def c3Stmt : Stmt :=
  ⟨.typeS "T" [("T.A", []), ("T.B", ["x"])]
    [⟨"m", .mk (.lambda [.id "y"] (.mk (.var "y") l0)) l0⟩], l0⟩

end Compiler

namespace Vm

/-- Whether a vm constant is a list value. -/
def Constant.isList : Constant → Bool
  | .list _ => true
  | _ => false

end Vm

/-! ### Invariant machinery

The compiler's structural invariants are established by one induction over
the mutual compile functions.  `ECX S σ σ'` is the contract of a single
emission step or construct: the current scope's buffer is extended, outer
scopes and interned constants are preserved, every jump written into the new
region is patched to a target inside the construct except at the still-open
placeholder sites `S`, and the state invariant `Inv` (slot-map shape, push
bounds, pool deduplication) is maintained. -/

namespace Compiler

/-- The opcode buffer of the current scope. -/
def opsOf (σ : CompilerState) : List OpCodeMetadata := (curScope σ).opcodes

/-- The jump target of an opcode, for the three jump-carrying opcodes. -/
def jumpTarget : OpCode → Option Nat
  | .jmp a => some a
  | .jmf a => some a
  | .tryC a => some a
  | _ => none

/-- Every jump in the region from `base` on, except at the sites of `S`,
targets an address in `(base, |ops|]`. -/
def SegClosedX (base : Nat) (S : List Nat) (ops : List OpCodeMetadata) : Prop :=
  ∀ i m a, base ≤ i → i ∉ S → ops.get? i = some m →
    jumpTarget m.opcode = some a → base < a ∧ a ≤ ops.length

/-- Every jump from `base` on targets an address in `(base, |ops|]`. -/
def SegClosed (base : Nat) (ops : List OpCodeMetadata) : Prop :=
  SegClosedX base [] ops

/-- Every `Push(i)` in a buffer satisfies `i < C`. -/
def PushBound (C : Nat) (ops : List OpCodeMetadata) : Prop :=
  ∀ m ∈ ops, ∀ i, m.opcode = .push i → i < C

mutual
/-- Every function body reachable inside a value has all its jumps inside
its own buffer (with strictly positive targets). -/
def ValueJumpsOk : Value → Prop
  | .list xs => ValuesJumpsOk xs
  | .fn f => FnJumpsOk f
  | .module (.mk _ fs) => FieldsJumpsOk fs
  | .tagged _ _ p => ValuesJumpsOk p
  | _ => True
  termination_by structural v => v

/-- Jump closure for every value of a list. -/
def ValuesJumpsOk : List Value → Prop
  | [] => True
  | v :: vs => ValueJumpsOk v ∧ ValuesJumpsOk vs
  termination_by structural vs => vs

/-- Jump closure of a function body. -/
def FnJumpsOk : Fn → Prop
  | .mk body _ => SegClosed 0 body

/-- Jump closure for every value of a field table. -/
def FieldsJumpsOk : List (String × Value) → Prop
  | [] => True
  | (_, v) :: fs => ValueJumpsOk v ∧ FieldsJumpsOk fs
  termination_by structural fs => fs
end

mutual
/-- Every `Push(i)` inside a function body reachable inside a value
satisfies `i < C`. -/
def ValuePushOk (C : Nat) : Value → Prop
  | .list xs => ValuesPushOk C xs
  | .fn f => FnPushOk C f
  | .module (.mk _ fs) => FieldsPushOk C fs
  | .tagged _ _ p => ValuesPushOk C p
  | _ => True
  termination_by structural v => v

/-- Push bounds for every value of a list. -/
def ValuesPushOk (C : Nat) : List Value → Prop
  | [] => True
  | v :: vs => ValuePushOk C v ∧ ValuesPushOk C vs
  termination_by structural vs => vs

/-- Push bounds of a function body. -/
def FnPushOk (C : Nat) : Fn → Prop
  | .mk body _ => PushBound C body

/-- Push bounds for every value of a field table. -/
def FieldsPushOk (C : Nat) : List (String × Value) → Prop
  | [] => True
  | (_, v) :: fs => ValuePushOk C v ∧ FieldsPushOk C fs
  termination_by structural fs => fs
end

/-- No two pool entries are structurally equal unless the earlier one is a
module (the dedup invariant; the orientation of `valueBEq` matches the
search `position(|c| c == new)` of `emit_const`). -/
def PoolDedup (cs : List Value) : Prop :=
  ∀ i j vi vj, i < j → cs.get? i = some vi → cs.get? j = some vj →
    valueBEq vi vj = true → vi.isModule = true

/-- The slot-map invariant of one scope: the ghost log of assigned slot
indices is exactly an initial segment `[0, M)` of the naturals, and the
local map never holds more entries than `M`, so the next fresh index (the
map's size) can never skip past `M`. -/
def ScopeInv (s : Scope) : Prop :=
  ∃ M, (∀ n, n ∈ s.assigns ↔ n < M) ∧ s.locals.length ≤ M

/-- The state invariant maintained by every compile step. -/
def Inv (σ : CompilerState) : Prop :=
  (∀ s ∈ σ.scope_stack, ScopeInv s ∧ PushBound σ.constants.length s.opcodes)
  ∧ (∀ v ∈ σ.constants, ValuePushOk σ.constants.length v ∧ ValueJumpsOk v)
  ∧ PoolDedup σ.constants

/-- The emission contract: compiling from `σ` to `σ'` extends the current
scope's buffer and the pool, preserves the outer scopes, keeps every new
jump patched inside `((opsOf σ).length, (opsOf σ').length]` except at the
still-open placeholder sites `S` (which lie in the new region), and
maintains `Inv`. -/
structure ECX (S : List Nat) (σ σ' : CompilerState) : Prop where
  ne : σ'.scope_stack ≠ []
  rest : σ'.scope_stack.tail = σ.scope_stack.tail
  pfx : ∃ Δ, opsOf σ' = opsOf σ ++ Δ
  seg : SegClosedX (opsOf σ).length S (opsOf σ')
  sites : ∀ s ∈ S, (opsOf σ).length ≤ s ∧ s < (opsOf σ').length
  cpfx : σ.constants <+: σ'.constants
  inv : Inv σ'

/-- The contract of a fully patched construct. -/
def EC (σ σ' : CompilerState) : Prop := ECX [] σ σ'

/-! Basic facts about segments, push bounds and the pool search. -/

theorem segClosedX_of_le {base : Nat} {S : List Nat} {ops : List OpCodeMetadata}
    (h : ops.length ≤ base) : SegClosedX base S ops := by
  intro i m a hbase _ hget _
  exact absurd ((List.get?_eq_some.mp hget).1) (by omega)

theorem segClosedX_congr {base : Nat} {S T : List Nat} {ops : List OpCodeMetadata}
    (h : SegClosedX base S ops) (hm : ∀ x, x ∈ T ↔ x ∈ S) : SegClosedX base T ops := by
  intro i m a hbase hi hget htg
  exact h i m a hbase (fun hmem => hi ((hm i).mpr hmem)) hget htg

theorem segClosedX_append_one {base : Nat} {S : List Nat} {ops : List OpCodeMetadata}
    {m : OpCodeMetadata} (h : SegClosedX base S ops)
    (hm : ∀ a, jumpTarget m.opcode = some a → base < a ∧ a ≤ ops.length + 1) :
    SegClosedX base S (ops ++ [m]) := by
  intro i m' a hbase hi hget htg
  rcases lt_or_ge i ops.length with hlt | hge
  · rw [List.get?_append hlt] at hget
    have := h i m' a hbase hi hget htg
    simp only [List.length_append, List.length_cons, List.length_nil]
    omega
  · have hi2 : i = ops.length := by
      have := (List.get?_eq_some.mp hget).1
      simp only [List.length_append, List.length_cons, List.length_nil] at this
      omega
    subst hi2
    rw [List.get?_append_right hge] at hget
    simp only [Nat.sub_self, List.get?_cons_zero, Option.some.injEq] at hget
    subst hget
    have := hm a htg
    simp only [List.length_append, List.length_cons, List.length_nil]
    omega

theorem segClosedX_append_site {base : Nat} {S : List Nat} {ops : List OpCodeMetadata}
    {m : OpCodeMetadata} (h : SegClosedX base S ops) :
    SegClosedX base (ops.length :: S) (ops ++ [m]) := by
  intro i m' a hbase hi hget htg
  have hne : i ≠ ops.length := fun he => hi (he ▸ List.mem_cons_self _ _)
  have hiS : i ∉ S := fun he => hi (List.mem_cons_of_mem _ he)
  have hlen := (List.get?_eq_some.mp hget).1
  simp only [List.length_append, List.length_cons, List.length_nil] at hlen
  have hlt : i < ops.length := by omega
  rw [List.get?_append hlt] at hget
  have := h i m' a hbase hiS hget htg
  simp only [List.length_append, List.length_cons, List.length_nil]
  omega

theorem segClosedX_extend {base : Nat} {S₁ S₂ : List Nat}
    {ops1 ops2 : List OpCodeMetadata} {Δ : List OpCodeMetadata}
    (hb : base ≤ ops1.length) (heq : ops2 = ops1 ++ Δ)
    (h1 : SegClosedX base S₁ ops1) (h2 : SegClosedX ops1.length S₂ ops2) :
    SegClosedX base (S₁ ++ S₂) ops2 := by
  intro i m a hbase hi hget htg
  have hi1 : i ∉ S₁ := fun he => hi (List.mem_append_left _ he)
  have hi2 : i ∉ S₂ := fun he => hi (List.mem_append_right _ he)
  rcases lt_or_ge i ops1.length with hlt | hge
  · subst heq
    rw [List.get?_append hlt] at hget
    have := h1 i m a hbase hi1 hget htg
    have : base < a ∧ a ≤ ops1.length := this
    simp only [List.length_append]
    omega
  · have := h2 i m a hge hi2 hget htg
    omega

theorem segClosedX_set_head {base : Nat} {S : List Nat} {ops : List OpCodeMetadata}
    {s L : Nat} {m' : OpCodeMetadata}
    (h : SegClosedX base (s :: S) ops) (hsL : s < L) (hbs : base ≤ s)
    (hL : L ≤ ops.length) (hm' : jumpTarget m'.opcode = some L) :
    SegClosedX base S (ops.set s m') := by
  intro i m a hbase hi hget htg
  rw [List.length_set]
  rcases eq_or_ne i s with he | hne
  · subst he
    have hslen : i < ops.length := by omega
    rw [List.get?_set_eq, List.get?_eq_get hslen] at hget
    simp only [Option.map_some, Option.some.injEq] at hget
    subst hget
    rw [hm'] at htg
    injection htg with hLa
    omega
  · rw [List.get?_set_ne _ _ (Ne.symm hne)] at hget
    exact h i m a hbase (by
      intro hmem
      rcases List.mem_cons.mp hmem with h1 | h2
      · exact hne h1
      · exact hi h2) hget htg

theorem pushBound_append {C : Nat} {ops : List OpCodeMetadata} {m : OpCodeMetadata}
    (h : PushBound C ops) (hm : ∀ i, m.opcode = .push i → i < C) :
    PushBound C (ops ++ [m]) := by
  intro x hx i hxi
  rcases List.mem_append.mp hx with h1 | h2
  · exact h x h1 i hxi
  · simp only [List.mem_cons, List.not_mem_nil, or_false] at h2
    subst h2
    exact hm i hxi

theorem pushBound_mono {C C' : Nat} {ops : List OpCodeMetadata}
    (h : PushBound C ops) (hC : C ≤ C') : PushBound C' ops :=
  fun m hm i hi => lt_of_lt_of_le (h m hm i hi) hC

theorem pushBound_set {C : Nat} {ops : List OpCodeMetadata} {k : Nat}
    {m : OpCodeMetadata} (h : PushBound C ops)
    (hm : ∀ i, m.opcode = .push i → i < C) : PushBound C (ops.set k m) := by
  intro x hx i hxi
  rcases List.mem_or_eq_of_mem_set hx with h1 | h2
  · exact h x h1 i hxi
  · subst h2
    exact hm i hxi

theorem findIdx?_none_forall {α : Type} {p : α → Bool} {l : List α}
    (hnone : l.findIdx? p = none) : ∀ x ∈ l, p x = false := by
  intro x hx
  have := List.findIdx?_eq_none_iff.mp hnone x hx
  exact Bool.not_eq_true _ ▸ Bool.eq_false_iff.mpr (by simpa using this)

theorem findIdx?_some_bound {α : Type} {p : α → Bool} :
    ∀ {l : List α} {n i : Nat}, List.findIdx? p l n = some i → n ≤ i ∧ i < n + l.length := by
  intro l
  induction l with
  | nil => intro n i h; simp [List.findIdx?] at h
  | cons a as ih =>
      intro n i h
      rw [List.findIdx?] at h
      by_cases hpa : p a
      · simp [hpa] at h; simp; omega
      · simp only [hpa, cond_false] at h
        have := ih h
        simp only [List.length_cons]
        omega

/-! State equations for the emission primitives, under the canonical
destructuring of a nonempty scope stack. -/

theorem scope_stack_eq {σ : CompilerState} (h : σ.scope_stack ≠ []) :
    σ.scope_stack = curScope σ :: σ.scope_stack.tail := by
  cases hs : σ.scope_stack with
  | nil => exact absurd hs h
  | cons s rest => simp [curScope, hs]

theorem withScope_eq {f : Scope → Scope} {σ : CompilerState}
    (h : σ.scope_stack ≠ []) :
    withScope f σ =
      ⟨f (curScope σ) :: σ.scope_stack.tail, σ.constants, σ.unique_counter⟩ := by
  cases hs : σ.scope_stack with
  | nil => exact absurd hs h
  | cons s rest => simp [withScope, hs, curScope]

theorem emit_op_eq {o : OpCode} {l : Location} {σ : CompilerState}
    (h : σ.scope_stack ≠ []) :
    emit_op o l σ =
      ⟨{ curScope σ with
          opcodes := (curScope σ).opcodes ++ [⟨o, l.line, l.column⟩] } ::
        σ.scope_stack.tail, σ.constants, σ.unique_counter⟩ :=
  withScope_eq h

theorem patchOp_eq_some {i : Nat} {o : OpCode} {σ : CompilerState}
    {m : OpCodeMetadata} (h : σ.scope_stack ≠ [])
    (hm : (opsOf σ).get? i = some m) :
    patchOp i o σ =
      ⟨{ curScope σ with opcodes := (opsOf σ).set i { m with opcode := o } } ::
        σ.scope_stack.tail, σ.constants, σ.unique_counter⟩ := by
  rw [patchOp, withScope_eq h]
  simp only [opsOf] at hm
  rw [hm]
  rfl

theorem emit_save_eq_found {bind : String} {loc : Location} {σ : CompilerState}
    {idx : Nat} (hlk : alookup (curScope σ).locals bind = some idx) :
    emit_save bind loc σ = emit_op (.save idx) loc σ := by
  rw [emit_save]
  simp only [hlk]

theorem emit_save_eq_fresh {bind : String} {loc : Location} {σ : CompilerState}
    (hlk : alookup (curScope σ).locals bind = none) :
    emit_save bind loc σ =
      emit_op (.save (curScope σ).locals.length) loc
        (withScope
          (fun s =>
            { s with
              locals := s.locals ++ [(bind, (curScope σ).locals.length)],
              assigns := s.assigns ++ [(curScope σ).locals.length] }) σ) := by
  rw [emit_save]
  simp only [hlk]

theorem emit_load_eq_found {bind : String} {loc : Location} {σ : CompilerState}
    {idx : Nat} (hlk : alookup (curScope σ).locals bind = some idx) :
    emit_load bind loc σ = emit_op (.load idx) loc σ := by
  rw [emit_load]
  simp only [hlk]

theorem emit_load_eq_global {bind : String} {loc : Location} {σ : CompilerState}
    (hlk : alookup (curScope σ).locals bind = none) :
    emit_load bind loc σ = emit_op (.loag bind) loc σ := by
  rw [emit_load]
  simp only [hlk]

theorem emit_lit_eq_found {lit : Literal} {loc : Location} {σ : CompilerState}
    {idx : Nat} (hf : σ.constants.findIdx? (fun c => litBEq lit c) = some idx) :
    emit_lit lit loc σ = emit_op (.push idx) loc σ := by
  rw [emit_lit]
  simp only [hf]

theorem emit_lit_eq_new {lit : Literal} {loc : Location} {σ : CompilerState}
    (hf : σ.constants.findIdx? (fun c => litBEq lit c) = none) :
    emit_lit lit loc σ =
      emit_op (.push σ.constants.length) loc
        { σ with constants := σ.constants ++ [Value.ofLiteral lit] } := by
  rw [emit_lit]
  simp only [hf]
  simp

theorem emit_const_eq_module {v : Value} {loc : Location} {σ : CompilerState}
    (hmod : v.isModule = true) :
    emit_const v loc σ =
      (σ.constants.length,
        emit_op (.push σ.constants.length) loc
          { σ with constants := σ.constants ++ [v] }) := by
  rw [emit_const]
  simp only [hmod, if_true]

theorem emit_const_eq_found {v : Value} {loc : Location} {σ : CompilerState}
    {idx : Nat} (hmod : v.isModule = false)
    (hf : σ.constants.findIdx? (fun c => valueBEq c v) = some idx) :
    emit_const v loc σ = (idx, emit_op (.push idx) loc σ) := by
  rw [emit_const]
  simp only [hmod, Bool.false_eq_true, if_false, hf]

theorem emit_const_eq_new {v : Value} {loc : Location} {σ : CompilerState}
    (hmod : v.isModule = false)
    (hf : σ.constants.findIdx? (fun c => valueBEq c v) = none) :
    emit_const v loc σ =
      (σ.constants.length,
        emit_op (.push σ.constants.length) loc
          { σ with constants := σ.constants ++ [v] }) := by
  rw [emit_const]
  simp only [hmod, Bool.false_eq_true, if_false, hf]

theorem emit_unique_eq {loc : Location} {σ : CompilerState} :
    emit_unique loc σ =
      ("#" ++ toString (σ.unique_counter + 1),
        emit_save ("#" ++ toString (σ.unique_counter + 1)) loc
          { σ with unique_counter := σ.unique_counter + 1 }) := rfl

/-- The cumulative removal of a list of keys from an association list. -/
def aremoveAll (l : List (String × Nat)) (ds : List String) : List (String × Nat) :=
  ds.foldl aremove l

theorem removeDecls_eq {D : List String} :
    ∀ {σ : CompilerState}, σ.scope_stack ≠ [] →
    removeDecls D σ =
      ⟨{ curScope σ with locals := aremoveAll (curScope σ).locals D } ::
        σ.scope_stack.tail, σ.constants, σ.unique_counter⟩ := by
  induction D with
  | nil =>
      intro σ h
      rw [removeDecls, List.foldl_nil, aremoveAll, List.foldl_nil]
      obtain ⟨st, c, u⟩ := σ
      cases st with
      | nil => exact absurd rfl h
      | cons s rest => simp [curScope]
  | cons d D ih =>
      intro σ h
      rw [removeDecls, List.foldl_cons, ← removeDecls]
      rw [ih (by rw [withScope_eq h]; simp)]
      rw [withScope_eq h]
      simp [curScope, aremoveAll]

/-! Preservation of the scope and pool invariants by the primitive steps. -/

theorem aremove_length_le {α : Type} {k : String} :
    ∀ {l : List (String × α)}, (aremove l k).length ≤ l.length := by
  intro l
  induction l with
  | nil => simp [aremove]
  | cons p rest ih =>
      rw [aremove]
      by_cases hk : p.1 = k
      · simp only [hk, if_true]
        simp
      · simp only [hk, if_false]
        simp only [List.length_cons]
        omega

theorem aremoveAll_length_le {ds : List String} :
    ∀ {l : List (String × Nat)}, (aremoveAll l ds).length ≤ l.length := by
  induction ds with
  | nil => intro l; simp [aremoveAll]
  | cons d ds ih =>
      intro l
      rw [aremoveAll, List.foldl_cons, ← aremoveAll]
      exact le_trans ih aremove_length_le

theorem scopeInv_new : ScopeInv Scope.new := by
  refine ⟨0, ?_, ?_⟩ <;> simp [Scope.new]

theorem scopeInv_opcodes {s : Scope} {ops : List OpCodeMetadata}
    (h : ScopeInv s) : ScopeInv { s with opcodes := ops } := h

theorem scopeInv_fresh {s : Scope} {b : String} (h : ScopeInv s) :
    ScopeInv
      { s with
        locals := s.locals ++ [(b, s.locals.length)],
        assigns := s.assigns ++ [s.locals.length] } := by
  obtain ⟨M, hM, hlen⟩ := h
  rcases eq_or_lt_of_le hlen with heq | hlt
  · refine ⟨M + 1, ?_, ?_⟩
    · intro n
      simp only [List.mem_append, List.mem_cons, List.not_mem_nil, or_false, hM, heq]
      omega
    · simp only [List.length_append, List.length_cons, List.length_nil]
      omega
  · refine ⟨M, ?_, ?_⟩
    · intro n
      simp only [List.mem_append, List.mem_cons, List.not_mem_nil, or_false, hM]
      constructor
      · rintro (h1 | h1)
        · exact h1
        · omega
      · intro h1
        exact Or.inl h1
    · simp only [List.length_append, List.length_cons, List.length_nil]
      omega

theorem scopeInv_removeAll {s : Scope} {ds : List String} (h : ScopeInv s) :
    ScopeInv { s with locals := aremoveAll s.locals ds } := by
  obtain ⟨M, hM, hlen⟩ := h
  exact ⟨M, hM, le_trans aremoveAll_length_le hlen⟩

theorem valueBEq_module_right {w : Value} {m : YexModule}
    (h : valueBEq w (.module m) = true) : w.isModule = true := by
  cases w <;> simp_all [valueBEq, Value.isModule]

theorem valueBEq_isModule_right {w v : Value} (hv : v.isModule = true)
    (h : valueBEq w v = true) : w.isModule = true := by
  cases v with
  | module m => exact valueBEq_module_right h
  | _ => simp [Value.isModule] at hv

theorem valueBEq_ofLiteral_flip {l : Literal} {w : Value} :
    valueBEq w (Value.ofLiteral l) = litBEq l w := by
  rw [litBEq]
  cases l <;> cases w <;>
    simp [valueBEq, Value.ofLiteral, beq_iff_eq, eq_comm]

theorem poolDedup_append {cs : List Value} {v : Value} (h : PoolDedup cs)
    (hnew : ∀ vi ∈ cs, valueBEq vi v = false) : PoolDedup (cs ++ [v]) := by
  intro i j vi vj hij hgi hgj hbeq
  have hjlen := (List.get?_eq_some.mp hgj).1
  simp only [List.length_append, List.length_cons, List.length_nil] at hjlen
  have hilen := (List.get?_eq_some.mp hgi).1
  simp only [List.length_append, List.length_cons, List.length_nil] at hilen
  have hilt : i < cs.length := by omega
  rw [List.get?_append hilt] at hgi
  rcases lt_or_ge j cs.length with hjlt | hjge
  · rw [List.get?_append hjlt] at hgj
    exact h i j vi vj hij hgi hgj hbeq
  · have hj : j = cs.length := by omega
    subst hj
    rw [List.get?_append_right hjge] at hgj
    simp only [Nat.sub_self, List.get?_cons_zero, Option.some.injEq] at hgj
    subst hgj
    have := hnew vi (List.get?_mem hgi)
    rw [this] at hbeq
    cases hbeq

theorem poolDedup_append_module {cs : List Value} {v : Value} (h : PoolDedup cs)
    (hmod : v.isModule = true) : PoolDedup (cs ++ [v]) := by
  intro i j vi vj hij hgi hgj hbeq
  have hjlen := (List.get?_eq_some.mp hgj).1
  simp only [List.length_append, List.length_cons, List.length_nil] at hjlen
  have hilen := (List.get?_eq_some.mp hgi).1
  simp only [List.length_append, List.length_cons, List.length_nil] at hilen
  have hilt : i < cs.length := by omega
  rw [List.get?_append hilt] at hgi
  rcases lt_or_ge j cs.length with hjlt | hjge
  · rw [List.get?_append hjlt] at hgj
    exact h i j vi vj hij hgi hgj hbeq
  · have hj : j = cs.length := by omega
    subst hj
    rw [List.get?_append_right hjge] at hgj
    simp only [Nat.sub_self, List.get?_cons_zero, Option.some.injEq] at hgj
    subst hgj
    exact valueBEq_isModule_right hmod hbeq

theorem poolDedup_set_module {cs : List Value} {v : Value} {k : Nat}
    (h : PoolDedup cs) (hmod : v.isModule = true) : PoolDedup (cs.set k v) := by
  intro i j vi vj hij hgi hgj hbeq
  rcases eq_or_ne i k with hik | hik
  · subst hik
    have hilen := (List.get?_eq_some.mp hgi).1
    rw [List.length_set] at hilen
    rw [List.get?_set_eq, List.get?_eq_get hilen] at hgi
    simp only [Option.map_some, Option.some.injEq] at hgi
    subst hgi
    exact hmod
  · rw [List.get?_set_ne _ _ (Ne.symm hik)] at hgi
    rcases eq_or_ne j k with hjk | hjk
    · subst hjk
      have hjlen := (List.get?_eq_some.mp hgj).1
      rw [List.length_set] at hjlen
      rw [List.get?_set_eq, List.get?_eq_get hjlen] at hgj
      simp only [Option.map_some, Option.some.injEq] at hgj
      subst hgj
      exact valueBEq_isModule_right hmod hbeq
    · rw [List.get?_set_ne _ _ (Ne.symm hjk)] at hgj
      exact h i j vi vj hij hgi hgj hbeq

mutual
/-- Push bounds are monotone in the pool size. -/
theorem valuePushOk_mono {C C' : Nat} (hC : C ≤ C') :
    ∀ {v : Value}, ValuePushOk C v → ValuePushOk C' v
  | .num _, h => h
  | .str _, h => h
  | .sym _, h => h
  | .bool _, h => h
  | .nil, h => h
  | .list xs, h => valuesPushOk_mono hC (v := xs) h
  | .fn f, h => fnPushOk_mono hC (v := f) h
  | .module (.mk _ fs), h => fieldsPushOk_mono hC (v := fs) h
  | .tagged _ _ p, h => valuesPushOk_mono hC (v := p) h

/-- Push bounds of a value list are monotone in the pool size. -/
theorem valuesPushOk_mono {C C' : Nat} (hC : C ≤ C') :
    ∀ {v : List Value}, ValuesPushOk C v → ValuesPushOk C' v
  | [], h => h
  | _ :: vs, h => ⟨valuePushOk_mono hC h.1, valuesPushOk_mono hC (v := vs) h.2⟩

/-- Push bounds of a function are monotone in the pool size. -/
theorem fnPushOk_mono {C C' : Nat} (hC : C ≤ C') :
    ∀ {v : Fn}, FnPushOk C v → FnPushOk C' v
  | .mk _ _, h => pushBound_mono h hC

/-- Push bounds of a field table are monotone in the pool size. -/
theorem fieldsPushOk_mono {C C' : Nat} (hC : C ≤ C') :
    ∀ {v : List (String × Value)}, FieldsPushOk C v → FieldsPushOk C' v
  | [], h => h
  | (_, _) :: fs, h => ⟨valuePushOk_mono hC h.1, fieldsPushOk_mono hC (v := fs) h.2⟩
end

theorem valuePushOk_ofLiteral {C : Nat} {l : Literal} :
    ValuePushOk C (Value.ofLiteral l) := by
  cases l <;> simp [Value.ofLiteral, ValuePushOk]

theorem valueJumpsOk_ofLiteral {l : Literal} : ValueJumpsOk (Value.ofLiteral l) := by
  cases l <;> simp [Value.ofLiteral, ValueJumpsOk]

theorem valuePushOk_str {C : Nat} {s : String} : ValuePushOk C (.str s) := by
  simp [ValuePushOk]

theorem valuePushOk_sym {C : Nat} {s : String} : ValuePushOk C (.sym s) := by
  simp [ValuePushOk]

theorem valuePushOk_emptyList {C : Nat} : ValuePushOk C (.list []) := by
  simp [ValuePushOk, ValuesPushOk]

theorem valueJumpsOk_str {s : String} : ValueJumpsOk (.str s) := by
  simp [ValueJumpsOk]

theorem valueJumpsOk_sym {s : String} : ValueJumpsOk (.sym s) := by
  simp [ValueJumpsOk]

theorem valueJumpsOk_emptyList : ValueJumpsOk (.list []) := by
  simp [ValueJumpsOk, ValuesJumpsOk]

theorem jumpTarget_ne_push {op : OpCode} {a : Nat}
    (h : jumpTarget op = some a) : ∀ i, op ≠ .push i := by
  cases op <;> simp_all [jumpTarget]

theorem opsOf_patchOp_length {i : Nat} {op : OpCode} {σ : CompilerState} :
    (opsOf (patchOp i op σ)).length = (opsOf σ).length := by
  rw [patchOp]
  cases hs : σ.scope_stack with
  | nil => simp [withScope, hs, opsOf]
  | cons s rest =>
      simp only [withScope, hs]
      cases hm : s.opcodes.get? i <;>
        simp [opsOf, curScope, hs, hm, List.length_set]

theorem set_append_right {α : Type} (l r : List α) (k : Nat) (a : α) :
    (l ++ r).set (l.length + k) a = l ++ r.set k a := by
  induction l with
  | nil => simp
  | cons x xs ih => simp [List.set, Nat.add_right_comm, Nat.succ_add]

theorem inv_top {σ : CompilerState} (hne : σ.scope_stack ≠ []) (hinv : Inv σ) :
    ScopeInv (curScope σ) ∧ PushBound σ.constants.length (curScope σ).opcodes :=
  hinv.1 _ (by rw [scope_stack_eq hne]; exact List.mem_cons_self _ _)

theorem inv_tail {σ : CompilerState} (hne : σ.scope_stack ≠ []) (hinv : Inv σ) :
    ∀ s ∈ σ.scope_stack.tail, ScopeInv s ∧ PushBound σ.constants.length s.opcodes :=
  fun s hs => hinv.1 s (by rw [scope_stack_eq hne]; exact List.mem_cons_of_mem _ hs)

theorem inv_initState : Inv initState := by
  refine ⟨?_, ?_, ?_⟩
  · intro s hs
    simp only [initState, List.mem_cons, List.not_mem_nil, or_false] at hs
    subst hs
    exact ⟨scopeInv_new, by intro m hm; simp [Scope.new] at hm⟩
  · intro v hv
    simp [initState] at hv
  · intro i j vi vj _ hgi _ _
    simp [initState] at hgi

theorem EC_refl {σ : CompilerState} (hne : σ.scope_stack ≠ []) (hinv : Inv σ) :
    EC σ σ := by
  refine ⟨hne, rfl, ⟨[], by simp⟩, segClosedX_of_le le_rfl, ?_, List.prefix_refl _, hinv⟩
  intro s hs
  cases hs

theorem ECX_trans {S₁ S₂ : List Nat} {σ σ' σ'' : CompilerState}
    (h1 : ECX S₁ σ σ') (h2 : ECX S₂ σ' σ'') : ECX (S₁ ++ S₂) σ σ'' := by
  obtain ⟨Δ₁, hΔ₁⟩ := h1.pfx
  obtain ⟨Δ₂, hΔ₂⟩ := h2.pfx
  have hlen1 : (opsOf σ).length ≤ (opsOf σ').length := by
    rw [hΔ₁]; simp
  have hlen2 : (opsOf σ').length ≤ (opsOf σ'').length := by
    rw [hΔ₂]; simp
  refine ⟨h2.ne, h2.rest.trans h1.rest, ⟨Δ₁ ++ Δ₂, by rw [hΔ₂, hΔ₁, List.append_assoc]⟩,
    segClosedX_extend hlen1 hΔ₂ h1.seg h2.seg, ?_, h1.cpfx.trans h2.cpfx, h2.inv⟩
  intro s hs
  rcases List.mem_append.mp hs with hmem | hmem
  · have := h1.sites s hmem
    omega
  · have := h2.sites s hmem
    omega

theorem ECX_ec_trans {S : List Nat} {σ σ' σ'' : CompilerState}
    (h1 : ECX S σ σ') (h2 : EC σ' σ'') : ECX S σ σ'' := by
  have := ECX_trans h1 h2
  simpa using this

theorem EC_ecx_trans {S : List Nat} {σ σ' σ'' : CompilerState}
    (h1 : EC σ σ') (h2 : ECX S σ' σ'') : ECX S σ σ'' :=
  ECX_trans h1 h2

/-! ECX step lemmas: each emission primitive preserves the contract. -/

theorem ECX_emit_op {S : List Nat} {σ σ' : CompilerState} (h : ECX S σ σ')
    (op : OpCode) (loc : Location)
    (hjump : ∀ a, jumpTarget op = some a →
      (opsOf σ).length < a ∧ a ≤ (opsOf σ').length + 1)
    (hpush : ∀ i, op = .push i → i < σ'.constants.length) :
    ECX S σ (emit_op op loc σ') := by
  have hne' := h.ne
  have E := emit_op_eq (o := op) (l := loc) hne'
  obtain ⟨Δ, hΔ⟩ := h.pfx
  have hops : opsOf (emit_op op loc σ') =
      opsOf σ' ++ [⟨op, loc.line, loc.column⟩] := by
    rw [E]; rfl
  refine ⟨?_, ?_, ?_, ?_, ?_, ?_, ?_⟩
  · rw [E]; simp
  · rw [E]; exact h.rest
  · exact ⟨Δ ++ [⟨op, loc.line, loc.column⟩], by rw [hops, hΔ, List.append_assoc]⟩
  · rw [hops]
    exact segClosedX_append_one h.seg hjump
  · intro s hs
    have := h.sites s hs
    rw [hops]
    simp only [List.length_append, List.length_cons, List.length_nil]
    omega
  · rw [E]; exact h.cpfx
  · have hinv := h.inv
    rw [E]
    refine ⟨?_, hinv.2.1, hinv.2.2⟩
    intro s hs
    rcases List.mem_cons.mp hs with hs1 | hs2
    · subst hs1
      exact ⟨scopeInv_opcodes (inv_top hne' hinv).1,
        pushBound_append (inv_top hne' hinv).2 (fun i hi => hpush i hi)⟩
    · exact inv_tail hne' hinv s hs2

theorem ECX_emit_ph {S : List Nat} {σ σ' : CompilerState} (h : ECX S σ σ')
    {o : OpCode} {a : Nat} (loc : Location) (htg : jumpTarget o = some a) :
    ECX ((opsOf σ').length :: S) σ (emit_op o loc σ') := by
  have hne' := h.ne
  have E := emit_op_eq (o := o) (l := loc) hne'
  obtain ⟨Δ, hΔ⟩ := h.pfx
  have hops : opsOf (emit_op o loc σ') =
      opsOf σ' ++ [⟨o, loc.line, loc.column⟩] := by
    rw [E]; rfl
  have hbase : (opsOf σ).length ≤ (opsOf σ').length := by rw [hΔ]; simp
  refine ⟨?_, ?_, ?_, ?_, ?_, ?_, ?_⟩
  · rw [E]; simp
  · rw [E]; exact h.rest
  · exact ⟨Δ ++ [⟨o, loc.line, loc.column⟩], by rw [hops, hΔ, List.append_assoc]⟩
  · rw [hops]
    exact segClosedX_append_site h.seg
  · intro s hs
    rw [hops]
    simp only [List.length_append, List.length_cons, List.length_nil]
    rcases List.mem_cons.mp hs with hs1 | hs2
    · omega
    · have := h.sites s hs2
      omega
  · rw [E]; exact h.cpfx
  · have hinv := h.inv
    rw [E]
    refine ⟨?_, hinv.2.1, hinv.2.2⟩
    intro s hs
    rcases List.mem_cons.mp hs with hs1 | hs2
    · subst hs1
      exact ⟨scopeInv_opcodes (inv_top hne' hinv).1,
        pushBound_append (inv_top hne' hinv).2 (fun i hi => by
          have := jumpTarget_ne_push htg i
          exact absurd hi this)⟩
    · exact inv_tail hne' hinv s hs2

theorem ECX_pool_append {S : List Nat} {σ σ' : CompilerState} {v : Value}
    (h : ECX S σ σ')
    (hvp : ValuePushOk (σ'.constants.length + 1) v) (hvj : ValueJumpsOk v)
    (hded : (∀ vi ∈ σ'.constants, valueBEq vi v = false) ∨ v.isModule = true) :
    ECX S σ { σ' with constants := σ'.constants ++ [v] } := by
  have hinv := h.inv
  refine ⟨h.ne, h.rest, h.pfx, h.seg, h.sites,
    h.cpfx.trans ⟨[v], rfl⟩, ?_, ?_, ?_⟩
  · intro s hs
    have := hinv.1 s hs
    simp only [List.length_append, List.length_cons, List.length_nil]
    exact ⟨this.1, pushBound_mono this.2 (by omega)⟩
  · intro w hw
    simp only [List.length_append, List.length_cons, List.length_nil]
    rcases List.mem_append.mp hw with h1 | h2
    · have := hinv.2.1 w h1
      exact ⟨valuePushOk_mono (by omega) this.1, this.2⟩
    · simp only [List.mem_cons, List.not_mem_nil, or_false] at h2
      subst h2
      exact ⟨by simpa using hvp, hvj⟩
  · rcases hded with h1 | h2
    · exact poolDedup_append hinv.2.2 h1
    · exact poolDedup_append_module hinv.2.2 h2

theorem ECX_counter {S : List Nat} {σ σ' : CompilerState} (h : ECX S σ σ')
    (n : Nat) : ECX S σ { σ' with unique_counter := n } :=
  ⟨h.ne, h.rest, h.pfx, h.seg, h.sites, h.cpfx, h.inv⟩

theorem ECX_emit_lit {S : List Nat} {σ σ' : CompilerState} (h : ECX S σ σ')
    (lit : Literal) (loc : Location) : ECX S σ (emit_lit lit loc σ') := by
  cases hf : σ'.constants.findIdx? (fun c => litBEq lit c) with
  | some idx =>
      rw [emit_lit_eq_found hf]
      refine ECX_emit_op h _ _ (by intro a ht; simp [jumpTarget] at ht) ?_
      intro i hi
      injection hi with hi'
      subst hi'
      have := findIdx?_some_bound hf
      omega
  | none =>
      rw [emit_lit_eq_new hf]
      have hstep := ECX_pool_append h (v := Value.ofLiteral lit)
        valuePushOk_ofLiteral valueJumpsOk_ofLiteral
        (Or.inl (by
          intro vi hvi
          rw [valueBEq_ofLiteral_flip]
          exact findIdx?_none_forall hf vi hvi))
      refine ECX_emit_op hstep _ _ (by intro a ht; simp [jumpTarget] at ht) ?_
      intro i hi
      injection hi with hi'
      subst hi'
      simp

theorem ECX_emit_const_snd {S : List Nat} {σ σ' : CompilerState} {v : Value}
    (h : ECX S σ σ') (loc : Location)
    (hvp : ValuePushOk (σ'.constants.length + 1) v) (hvj : ValueJumpsOk v) :
    ECX S σ (emit_const v loc σ').2 := by
  by_cases hmod : v.isModule = true
  · rw [emit_const_eq_module hmod]
    have hstep := ECX_pool_append h hvp hvj (Or.inr hmod)
    refine ECX_emit_op hstep _ _ (by intro a ht; simp [jumpTarget] at ht) ?_
    intro i hi
    injection hi with hi'
    subst hi'
    simp
  · have hmod' : v.isModule = false := by simpa using hmod
    cases hf : σ'.constants.findIdx? (fun c => valueBEq c v) with
    | some idx =>
        rw [emit_const_eq_found hmod' hf]
        refine ECX_emit_op h _ _ (by intro a ht; simp [jumpTarget] at ht) ?_
        intro i hi
        injection hi with hi'
        subst hi'
        have := findIdx?_some_bound hf
        omega
    | none =>
        rw [emit_const_eq_new hmod' hf]
        have hstep := ECX_pool_append h hvp hvj
          (Or.inl (findIdx?_none_forall hf))
        refine ECX_emit_op hstep _ _ (by intro a ht; simp [jumpTarget] at ht) ?_
        intro i hi
        injection hi with hi'
        subst hi'
        simp

theorem ECX_locals_fresh {S : List Nat} {σ σ' : CompilerState}
    {bind : String} (h : ECX S σ σ') :
    ECX S σ
      (withScope
        (fun s =>
          { s with
            locals := s.locals ++ [(bind, (curScope σ').locals.length)],
            assigns := s.assigns ++ [(curScope σ').locals.length] }) σ') := by
  have hne' := h.ne
  have E := withScope_eq (σ := σ')
    (f := fun s =>
      { s with
        locals := s.locals ++ [(bind, (curScope σ').locals.length)],
        assigns := s.assigns ++ [(curScope σ').locals.length] }) hne'
  have hops : opsOf (withScope
      (fun s =>
        { s with
          locals := s.locals ++ [(bind, (curScope σ').locals.length)],
          assigns := s.assigns ++ [(curScope σ').locals.length] }) σ') = opsOf σ' := by
    rw [E]; rfl
  refine ⟨?_, ?_, ?_, ?_, ?_, ?_, ?_⟩
  · rw [E]; simp
  · rw [E]; exact h.rest
  · rw [hops]; exact h.pfx
  · rw [hops]; exact h.seg
  · intro s hs
    rw [hops]
    exact h.sites s hs
  · rw [E]; exact h.cpfx
  · have hinv := h.inv
    rw [E]
    refine ⟨?_, hinv.2.1, hinv.2.2⟩
    intro s hs
    rcases List.mem_cons.mp hs with hs1 | hs2
    · subst hs1
      exact ⟨scopeInv_fresh (inv_top hne' hinv).1, (inv_top hne' hinv).2⟩
    · exact inv_tail hne' hinv s hs2

theorem ECX_emit_save {S : List Nat} {σ σ' : CompilerState} (h : ECX S σ σ')
    (bind : String) (loc : Location) : ECX S σ (emit_save bind loc σ') := by
  cases hlk : alookup (curScope σ').locals bind with
  | some idx =>
      rw [emit_save_eq_found hlk]
      exact ECX_emit_op h _ _ (by intro a ht; simp [jumpTarget] at ht)
        (by intro i hi; cases hi)
  | none =>
      rw [emit_save_eq_fresh hlk]
      exact ECX_emit_op (ECX_locals_fresh h) _ _
        (by intro a ht; simp [jumpTarget] at ht) (by intro i hi; cases hi)

theorem ECX_emit_unique_snd {S : List Nat} {σ σ' : CompilerState}
    (h : ECX S σ σ') (loc : Location) : ECX S σ (emit_unique loc σ').2 := by
  rw [emit_unique_eq]
  exact ECX_emit_save (ECX_counter h _) _ _

theorem ECX_emit_load {S : List Nat} {σ σ' : CompilerState} (h : ECX S σ σ')
    (bind : String) (loc : Location) : ECX S σ (emit_load bind loc σ') := by
  cases hlk : alookup (curScope σ').locals bind with
  | some idx =>
      rw [emit_load_eq_found hlk]
      exact ECX_emit_op h _ _ (by intro a ht; simp [jumpTarget] at ht)
        (by intro i hi; cases hi)
  | none =>
      rw [emit_load_eq_global hlk]
      exact ECX_emit_op h _ _ (by intro a ht; simp [jumpTarget] at ht)
        (by intro i hi; cases hi)

theorem ECX_removeDecls {S : List Nat} {σ σ' : CompilerState} (h : ECX S σ σ')
    (ds : List String) : ECX S σ (removeDecls ds σ') := by
  have hne' := h.ne
  have E := removeDecls_eq (D := ds) hne'
  have hops : opsOf (removeDecls ds σ') = opsOf σ' := by rw [E]; rfl
  refine ⟨?_, ?_, ?_, ?_, ?_, ?_, ?_⟩
  · rw [E]; simp
  · rw [E]; exact h.rest
  · rw [hops]; exact h.pfx
  · rw [hops]; exact h.seg
  · intro s hs
    rw [hops]
    exact h.sites s hs
  · rw [E]; exact h.cpfx
  · have hinv := h.inv
    rw [E]
    refine ⟨?_, hinv.2.1, hinv.2.2⟩
    intro s hs
    rcases List.mem_cons.mp hs with hs1 | hs2
    · subst hs1
      exact ⟨scopeInv_removeAll (inv_top hne' hinv).1, (inv_top hne' hinv).2⟩
    · exact inv_tail hne' hinv s hs2

theorem ECX_patchOne {S : List Nat} {σ σ' : CompilerState} {t : Nat}
    {o : OpCode} (h : ECX S σ σ') (hmem : t ∈ S)
    (htg : jumpTarget o = some ((opsOf σ').length)) :
    ECX (S.erase t) σ (patchOp t o σ') := by
  have hne' := h.ne
  obtain ⟨hbs, hslt⟩ := h.sites t hmem
  obtain ⟨m, hm⟩ : ∃ m, (opsOf σ').get? t = some m :=
    ⟨_, List.get?_eq_get hslt⟩
  have E := patchOp_eq_some (o := o) hne' hm
  have hops : opsOf (patchOp t o σ') =
      (opsOf σ').set t { m with opcode := o } := by
    rw [E]; rfl
  obtain ⟨Δ, hΔ⟩ := h.pfx
  have hbase : (opsOf σ).length ≤ (opsOf σ').length := by rw [hΔ]; simp
  refine ⟨?_, ?_, ?_, ?_, ?_, ?_, ?_⟩
  · rw [E]; simp
  · rw [E]; exact h.rest
  · rw [hops]
    obtain ⟨k, hk⟩ : ∃ k, t = (opsOf σ).length + k := ⟨t - (opsOf σ).length, by omega⟩
    refine ⟨Δ.set k { m with opcode := o }, ?_⟩
    rw [hΔ, hk, set_append_right]
  · rw [hops]
    intro i m' a hbi hi hget htg'
    rw [List.length_set]
    rcases eq_or_ne i t with he | hne2
    · subst he
      rw [List.get?_set_eq, List.get?_eq_get hslt] at hget
      simp only [Option.map_some, Option.some.injEq] at hget
      subst hget
      simp only at htg'
      rw [htg] at htg'
      injection htg' with ha
      omega
    · rw [List.get?_set_ne _ _ (Ne.symm hne2)] at hget
      have hiS : i ∉ S := fun hin => hi ((List.mem_erase_of_ne hne2).mpr hin)
      exact h.seg i m' a hbi hiS hget htg'
  · intro s hs
    have := h.sites s (List.mem_of_mem_erase hs)
    rw [hops, List.length_set]
    exact this
  · rw [E]; exact h.cpfx
  · have hinv := h.inv
    rw [E]
    refine ⟨?_, hinv.2.1, hinv.2.2⟩
    intro s hs
    rcases List.mem_cons.mp hs with hs1 | hs2
    · subst hs1
      refine ⟨scopeInv_opcodes (inv_top hne' hinv).1, ?_⟩
      have hpb : PushBound σ'.constants.length (opsOf σ') := (inv_top hne' hinv).2
      exact pushBound_set hpb (fun i hi => by
        have := jumpTarget_ne_push htg i
        exact absurd hi this)
    · exact inv_tail hne' hinv s hs2

theorem ECX_patchJmfSites {S : List Nat} {σ : CompilerState} :
    ∀ {F : List Nat} {σ' : CompilerState}, ECX (F ++ S) σ σ' →
      ECX S σ (patchJmfSites F σ') := by
  intro F
  induction F with
  | nil =>
      intro σ' h
      rw [patchJmfSites, List.foldl_nil]
      simpa using h
  | cons f fs ih =>
      intro σ' h
      rw [patchJmfSites, List.foldl_cons, ← patchJmfSites]
      have hone := ECX_patchOne (t := f) h (by simp) (o := .jmf (ip σ')) rfl
      rw [List.cons_append, List.erase_cons_head] at hone
      exact ih hone

theorem ECX_patchList {S : List Nat} {σ : CompilerState} :
    ∀ {J : List Nat} {σ' : CompilerState} {L : Nat},
      L = (opsOf σ').length → ECX (J ++ S) σ σ' →
      ECX S σ (J.foldl (fun σc j => patchOp j (.jmp L) σc) σ') := by
  intro J
  induction J with
  | nil =>
      intro σ' L _ h
      rw [List.foldl_nil]
      simpa using h
  | cons j js ih =>
      intro σ' L hL h
      rw [List.foldl_cons]
      have hone := ECX_patchOne (t := j) h (by simp) (o := .jmp L) (by rw [hL]; rfl)
      rw [List.cons_append, List.erase_cons_head] at hone
      refine ih ?_ hone
      rw [hL, opsOf_patchOp_length]

theorem ECX_emit_ops_clean {S : List Nat} {σ : CompilerState} {loc : Location} :
    ∀ {ops : List OpCode} {σ' : CompilerState}, ECX S σ σ' →
      (∀ op ∈ ops, jumpTarget op = none ∧ ∀ i, op ≠ .push i) →
      ECX S σ (emit_ops ops loc σ') := by
  intro ops
  induction ops with
  | nil =>
      intro σ' h _
      rw [emit_ops, List.foldl_nil]
      exact h
  | cons op ops ih =>
      intro σ' h hok
      rw [emit_ops, List.foldl_cons, ← emit_ops]
      refine ih (ECX_emit_op h _ _ ?_ ?_) ?_
      · intro a ht
        rw [(hok op (List.mem_cons_self _ _)).1] at ht
        cases ht
      · intro i hi
        exact absurd hi ((hok op (List.mem_cons_self _ _)).2 i)
      · intro o ho
        exact hok o (List.mem_cons_of_mem _ ho)

theorem ECX_congr_sites {S T : List Nat} {σ σ' : CompilerState}
    (h : ECX S σ σ') (hmem : ∀ x, x ∈ T ↔ x ∈ S) : ECX T σ σ' :=
  ⟨h.ne, h.rest, h.pfx, segClosedX_congr h.seg hmem,
    fun s hs => h.sites s ((hmem s).mp hs), h.cpfx, h.inv⟩

theorem ECX_emit_clean {S : List Nat} {σ σ' : CompilerState} (h : ECX S σ σ')
    (op : OpCode) (loc : Location) (hj : jumpTarget op = none)
    (hp : ∀ i, op ≠ .push i) : ECX S σ (emit_op op loc σ') :=
  ECX_emit_op h op loc (fun a ht => by rw [hj] at ht; cases ht)
    (fun i hi => absurd hi (hp i))

/-! The emission contract of the pattern compiler. -/

mutual
/-- `match_pattern` satisfies the emission contract, with the returned fail
sites as the still-open placeholder sites. -/
theorem match_pattern_ecx (p : Pattern) (g : Bool) (loc : Location)
    (σ : CompilerState) (hne : σ.scope_stack ≠ []) (hinv : Inv σ) :
    ECX (match_pattern p g loc σ).1.2 σ (match_pattern p g loc σ).2 := by
  cases p with
  | lit lt =>
      have h1 := ECX_emit_lit (EC_refl hne hinv) lt loc
      have h2 := ECX_emit_clean h1 .eq loc rfl (by intro i h; cases h)
      have h3 := ECX_emit_ph h2 loc (o := .jmf 0) (a := 0) rfl
      exact h3
  | id id =>
      by_cases hid : id = "_"
      · simp only [match_pattern, hid, ne_eq, not_true_eq_false, if_false]
        exact ECX_emit_clean (EC_refl hne hinv) .pop loc rfl (by intro i h; cases h)
      · simp only [match_pattern, hid, ne_eq, not_false_eq_true, if_true]
        cases g with
        | true =>
            simp only [if_true]
            exact ECX_emit_clean (EC_refl hne hinv) (.savg id) loc rfl
              (by intro i h; cases h)
        | false =>
            simp only [Bool.false_eq_true, if_false]
            exact ECX_emit_save (EC_refl hne hinv) id loc
  | variant path args =>
      simp only [match_pattern]
      have h1 := ECX_emit_clean (EC_refl hne hinv) .dup loc rfl (by intro i h; cases h)
      have h2 := ECX_emit_unique_snd h1 loc
      have h3 := ECX_emit_clean h2 .tagOf loc rfl (by intro i h; cases h)
      have h4 := ECX_emit_const_snd h3 loc (v := .sym (joinPath path))
        valuePushOk_sym valueJumpsOk_sym
      have h5 := ECX_emit_clean h4 .eq loc rfl (by intro i h; cases h)
      have h6 := ECX_emit_ph h5 loc (o := .jmf 0) (a := 0) rfl
      have h7 := ECX_emit_load h6 ((emit_unique loc (emit_op .dup loc σ)).1) loc
      have h8 := ECX_emit_clean h7 .tagTup loc rfl (by intro i h; cases h)
      have h9 := ECX_emit_clean h8 .len loc rfl (by intro i h; cases h)
      have h10 := ECX_emit_lit h9 (.num args.length) loc
      have h11 := ECX_emit_clean h10 .eq loc rfl (by intro i h; cases h)
      have h12 := ECX_emit_ph h11 loc (o := .jmf 0) (a := 0) rfl
      have h13 := matchArgs_ecx ((emit_unique loc (emit_op .dup loc σ)).1) true g loc 0
        args _ h12.ne h12.inv
      have h14 := ECX_trans h12 h13
      refine ECX_congr_sites h14 ?_
      intro x
      simp only [List.mem_cons, List.mem_append, List.not_mem_nil, or_false]
      tauto
  | tuple args =>
      simp only [match_pattern]
      have h1 := ECX_emit_unique_snd (EC_refl hne hinv) loc
      have h2 := ECX_emit_load h1 ((emit_unique loc σ).1) loc
      have h3 := ECX_emit_clean h2 .len loc rfl (by intro i h; cases h)
      have h4 := ECX_emit_const_snd h3 loc (v := .num args.length)
        (by simp [ValuePushOk]) (by simp [ValueJumpsOk])
      have h5 := ECX_emit_clean h4 .eq loc rfl (by intro i h; cases h)
      have h6 := ECX_emit_ph h5 loc (o := .jmf 0) (a := 0) rfl
      have h7 := matchArgs_ecx ((emit_unique loc σ).1) false g loc 0 args _ h6.ne h6.inv
      have h8 := ECX_trans h6 h7
      refine ECX_congr_sites h8 ?_
      intro x
      simp only [List.mem_cons, List.mem_append, List.not_mem_nil, or_false]
      tauto
  | listP head tail =>
      simp only [match_pattern]
      have h1 := ECX_emit_unique_snd (EC_refl hne hinv) loc
      have h2 := ECX_emit_load h1 ((emit_unique loc σ).1) loc
      have h3 := ECX_emit_clean h2 (.loag "List") loc rfl (by intro i h; cases h)
      have h4 := ECX_emit_clean h3 (.ref "head") loc rfl (by intro i h; cases h)
      have h5 := ECX_emit_clean h4 (.call 1) loc rfl (by intro i h; cases h)
      have h6 := match_pattern_ecx head g loc _ h5.ne h5.inv
      have h7 := ECX_trans h5 h6
      have h8 := ECX_emit_load h7 ((emit_unique loc σ).1) loc
      have h9 := ECX_emit_clean h8 (.loag "List") loc rfl (by intro i h; cases h)
      have h10 := ECX_emit_clean h9 (.ref "tail") loc rfl (by intro i h; cases h)
      have h11 := ECX_emit_clean h10 (.call 1) loc rfl (by intro i h; cases h)
      have h12 := match_pattern_ecx tail g loc _ h11.ne h11.inv
      have h13 := ECX_trans h11 h12
      refine ECX_congr_sites h13 ?_
      intro x
      simp only [List.mem_append, List.nil_append]
  | emptyList =>
      have h1 := ECX_emit_const_snd (EC_refl hne hinv) loc (v := .list [])
        valuePushOk_emptyList valueJumpsOk_emptyList
      have h2 := ECX_emit_clean h1 .eq loc rfl (by intro i h; cases h)
      have h3 := ECX_emit_ph h2 loc (o := .jmf 0) (a := 0) rfl
      exact h3
  termination_by structural p

/-- `matchArgs` satisfies the emission contract. -/
theorem matchArgs_ecx (tmp : String) (tagtup : Bool) (g : Bool) (loc : Location)
    (idx : Nat) (args : List Pattern) (σ : CompilerState)
    (hne : σ.scope_stack ≠ []) (hinv : Inv σ) :
    ECX (matchArgs tmp tagtup g loc idx args σ).1.2 σ
      (matchArgs tmp tagtup g loc idx args σ).2 := by
  cases args with
  | nil =>
      exact EC_refl hne hinv
  | cons p ps =>
      simp only [matchArgs]
      have h1 := ECX_emit_load (EC_refl hne hinv) tmp loc
      have h2 : ECX ([] : List Nat) σ
          (if tagtup then emit_op .tagTup loc (emit_load tmp loc σ)
            else emit_load tmp loc σ) := by
        cases tagtup with
        | true =>
            simp only [if_true]
            exact ECX_emit_clean h1 .tagTup loc rfl (by intro i h; cases h)
        | false =>
            simp only [Bool.false_eq_true, if_false]
            exact h1
      have h3 := ECX_emit_clean h2 (.tupGet idx) loc rfl (by intro i h; cases h)
      have h4 := match_pattern_ecx p g loc _ h3.ne h3.inv
      have h5 := ECX_trans h3 h4
      have h6 := matchArgs_ecx tmp tagtup g loc (idx + 1) ps _ h5.ne h5.inv
      have h7 := ECX_trans h5 h6
      refine ECX_congr_sites h7 ?_
      intro x
      simp only [List.mem_append, List.nil_append]
  termination_by structural args
end

/-- `lambdaArgs` satisfies the emission contract. -/
theorem lambdaArgs_ecx :
    ∀ (args : List Pattern) (loc : Location) (σ : CompilerState),
      σ.scope_stack ≠ [] → Inv σ →
      ECX (lambdaArgs args loc σ).1 σ (lambdaArgs args loc σ).2 := by
  intro args
  induction args with
  | nil =>
      intro loc σ hne hinv
      exact EC_refl hne hinv
  | cons p ps ih =>
      intro loc σ hne hinv
      simp only [lambdaArgs]
      have h1 := match_pattern_ecx p false loc σ hne hinv
      have h2 := ih loc _ h1.ne h1.inv
      exact ECX_trans h1 h2

theorem inv_pushScope {σ : CompilerState} (hinv : Inv σ) : Inv (pushScope σ) := by
  refine ⟨?_, hinv.2.1, hinv.2.2⟩
  intro s hs
  rcases List.mem_cons.mp hs with hs1 | hs2
  · subst hs1
    exact ⟨scopeInv_new, by intro m hm; simp [Scope.new] at hm⟩
  · exact hinv.1 s hs2

theorem popScope_eq {σ : CompilerState} {s : Scope} {rest : List Scope}
    (h : σ.scope_stack = s :: rest) :
    popScope σ = (s, { σ with scope_stack := rest }) := by
  rw [popScope, h]

/-- The raise-MatchError tail shared by `lambda_expr`, the `Let` expression
arm and the top-level `let` statement: a jump placeholder over the tail, the
fail-site patches, the two interned constants, `Loag raise; Call 2`, and the
final patch of the placeholder; starting from a state with open fail sites,
it yields a fully patched contract. -/
theorem matchErrorTail_ec {σ σ2 : CompilerState} {fixes : List Nat}
    {l : Location} (h : ECX fixes σ σ2) :
    EC σ
      (patchOp (ip σ2)
        (.jmp (ip (emit_op (.call 2) l (emit_op (.loag "raise") l
          (emit_const (.sym "MatchError") l
            (emit_const (.str "No match of rhs value") l
              (patchJmfSites fixes (emit_op (.jmp 0) l σ2))).2).2))))
        (emit_op (.call 2) l (emit_op (.loag "raise") l
          (emit_const (.sym "MatchError") l
            (emit_const (.str "No match of rhs value") l
              (patchJmfSites fixes (emit_op (.jmp 0) l σ2))).2).2))) := by
  have h4 := ECX_emit_ph h l (o := .jmp 0) (a := 0) rfl
  have h5 := ECX_patchJmfSites (S := [ip σ2]) (F := fixes)
    (ECX_congr_sites h4 (by
      intro x
      simp only [ip, opsOf, List.mem_cons, List.mem_append, List.not_mem_nil,
        or_false]
      tauto))
  have h6 := ECX_emit_const_snd h5 l (v := .str "No match of rhs value")
    valuePushOk_str valueJumpsOk_str
  have h7 := ECX_emit_const_snd h6 l (v := .sym "MatchError")
    valuePushOk_sym valueJumpsOk_sym
  have h8 := ECX_emit_clean h7 (.loag "raise") l rfl (by intro i h; cases h)
  have h9 := ECX_emit_clean h8 (.call 2) l rfl (by intro i h; cases h)
  have h10 := ECX_patchOne (t := ip σ2)
    (o := .jmp (ip (emit_op (.call 2) l (emit_op (.loag "raise") l
      (emit_const (.sym "MatchError") l
        (emit_const (.str "No match of rhs value") l
          (patchJmfSites fixes (emit_op (.jmp 0) l σ2))).2).2))))
    h9 (by simp) rfl
  rw [List.erase_cons_head] at h10
  exact h10

/-- The whole lambda-compilation chain (`lambda_expr`, also inlined in the
`lambda` arm of `expr`), parameterized over the contract of the body
compilation: the enclosing scope's buffer is untouched, the produced
function value satisfies the push and jump invariants at the resulting pool,
and the state change obeys the contract. -/
theorem lambda_expr_steps (args : List Pattern) (loc : Location) {body : Expr}
    {σ : CompilerState} (hne : σ.scope_stack ≠ []) (hinv : Inv σ)
    (hbody : ∀ σb, σb.scope_stack ≠ [] → Inv σb → EC σb (expr body σb)) :
    EC σ (lambda_expr args body loc σ).2
    ∧ ValuePushOk ((lambda_expr args body loc σ).2.constants.length)
        (.fn (lambda_expr args body loc σ).1)
    ∧ ValueJumpsOk (.fn (lambda_expr args body loc σ).1)
    ∧ opsOf (lambda_expr args body loc σ).2 = opsOf σ := by
  have hne0 : (pushScope σ).scope_stack ≠ [] := by simp [pushScope]
  have hinv0 : Inv (pushScope σ) := inv_pushScope hinv
  have h1 := lambdaArgs_ecx args loc (pushScope σ) hne0 hinv0
  have h2 := hbody _ h1.ne h1.inv
  have h3 := ECX_ec_trans h1 h2
  have h9 := matchErrorTail_ec (l := loc) h3
  have hstack9 := scope_stack_eq h9.ne
  have htail : ∀ σx : CompilerState,
      σx.scope_stack.tail = (pushScope σ).scope_stack.tail →
      σx.scope_stack.tail = σ.scope_stack := fun σx hx => hx
  have htail9 := htail _ h9.rest
  simp only [lambda_expr]
  rw [popScope_eq hstack9]
  have hC : σ.constants <+:
      (patchOp (ip (expr body (lambdaArgs args loc (pushScope σ)).2))
        (.jmp (ip (emit_op (.call 2) loc (emit_op (.loag "raise") loc
          (emit_const (.sym "MatchError") loc
            (emit_const (.str "No match of rhs value") loc
              (patchJmfSites (lambdaArgs args loc (pushScope σ)).1
                (emit_op (.jmp 0) loc
                  (expr body (lambdaArgs args loc (pushScope σ)).2)))).2).2))))
        (emit_op (.call 2) loc (emit_op (.loag "raise") loc
          (emit_const (.sym "MatchError") loc
            (emit_const (.str "No match of rhs value") loc
              (patchJmfSites (lambdaArgs args loc (pushScope σ)).1
                (emit_op (.jmp 0) loc
                  (expr body (lambdaArgs args loc (pushScope σ)).2)))).2).2))).constants :=
    h9.cpfx
  refine ⟨⟨?_, ?_, ?_, ?_, ?_, ?_, ?_⟩, ?_, ?_, ?_⟩
  · show _ ≠ _
    simp only
    rw [htail9]
    exact hne
  · simp only
    rw [htail9]
  · refine ⟨[], ?_⟩
    simp only [opsOf, curScope]
    rw [htail9, List.append_nil]
  · apply segClosedX_of_le
    simp only [opsOf, curScope]
    rw [htail9]
  · intro s hs
    cases hs
  · exact hC
  · have hinv9 := h9.inv
    refine ⟨?_, hinv9.2.1, hinv9.2.2⟩
    intro s hs
    simp only at hs
    refine hinv9.1 s ?_
    rw [hstack9]
    exact List.mem_cons_of_mem _ hs
  · simp only [ValuePushOk, FnPushOk]
    exact (inv_top h9.ne h9.inv).2
  · simp only [ValueJumpsOk, FnJumpsOk]
    have := h9.seg
    simpa [SegClosed, opsOf, pushScope, curScope, Scope.new] using this
  · simp only [opsOf, curScope]
    rw [htail9]

/-! The emission contract of the expression compiler. -/

mutual
/-- `expr` satisfies the emission contract: it extends the current scope's
buffer with fully patched code, extends the pool, preserves outer scopes and
maintains the state invariant. -/
theorem expr_ecx (e : Expr) : ∀ (σ : CompilerState), σ.scope_stack ≠ [] →
    Inv σ → EC σ (expr e σ) := by
  cases e with
  | mk kind loc =>
    cases kind with
    | lit l =>
        intro σ hne hinv
        exact ECX_emit_lit (EC_refl hne hinv) l loc
    | lambda args body =>
        intro σ hne hinv
        have hsteps := lambda_expr_steps args loc hne hinv
          (fun σb hb hi => expr_ecx body σb hb hi)
        exact ECX_emit_const_snd hsteps.1 loc
          (valuePushOk_mono (by omega) hsteps.2.1) hsteps.2.2.1
    | app callee args tl =>
        intro σ hne hinv
        have h1 := exprList_ecx args σ hne hinv
        have h2 : EC σ (if args.length > 1
            then emit_op (.revN args.length) loc (exprList args σ)
            else exprList args σ) := by
          split
          · exact ECX_emit_clean h1 (.revN args.length) loc rfl
              (by intro i h; cases h)
          · exact h1
        have h3 := ECX_ec_trans h2 (expr_ecx callee _ h2.ne h2.inv)
        cases tl with
        | true =>
            exact ECX_emit_clean h3 (.tcall args.length) loc rfl
              (by intro i h; cases h)
        | false =>
            exact ECX_emit_clean h3 (.call args.length) loc rfl
              (by intro i h; cases h)
    | var name =>
        intro σ hne hinv
        show EC σ (expr (.mk (.var name) loc) σ)
        cases hlk : alookup (curScope σ).locals name with
        | some idx =>
            simp only [expr, hlk]
            exact ECX_emit_clean (EC_refl hne hinv) (.load idx) loc rfl
              (by intro i h; cases h)
        | none =>
            simp only [expr, hlk]
            exact ECX_emit_clean (EC_refl hne hinv) (.loag name) loc rfl
              (by intro i h; cases h)
    | ifE cond then_ else_ =>
        intro σ hne hinv
        set σ1 := expr cond σ with hd1
        set σ2 := emit_op (.jmf 0) loc σ1 with hd2
        set σ3 := expr then_ σ2 with hd3
        set σ4 := emit_op (.jmp 0) loc σ3 with hd4
        set σ5 := patchOp (ip σ1) (.jmf (ip σ4)) σ4 with hd5
        set σ6 := expr else_ σ5 with hd6
        have h1 := expr_ecx cond σ hne hinv
        have h2 := ECX_emit_ph h1 loc (o := .jmf 0) (a := 0) rfl
        have h3 := ECX_ec_trans h2 (expr_ecx then_ _ h2.ne h2.inv)
        have h4 := ECX_emit_ph h3 loc (o := .jmp 0) (a := 0) rfl
        have h4b := ECX_congr_sites (T := [ip σ1, ip σ3]) h4
          (by intro x; simp only [hd1, hd2, hd3, ip, opsOf, List.mem_cons]; tauto)
        have h5 := ECX_patchOne (t := ip σ1) (o := .jmf (ip σ4)) h4b
          (by simp) rfl
        rw [List.erase_cons_head] at h5
        have h6 := ECX_ec_trans h5 (expr_ecx else_ _ h5.ne h5.inv)
        have h7 := ECX_patchOne (t := ip σ3) (o := .jmp (ip σ6)) h6
          (by simp) rfl
        rw [List.erase_cons_head] at h7
        exact h7
    | matchE scrutinee arms =>
        intro σ hne hinv
        set σ1 := expr scrutinee σ with hd1
        set tσ := emit_unique loc σ1 with hd2
        set σ3 := (emit_const (.str "Starting match") loc tσ.2).2 with hd3
        set σ4 := emit_op .pop loc σ3 with hd4
        set jσ := armLoop tσ.1 loc arms σ4 with hd5
        set σ6 := (emit_const (.str "Couldn\u0027t match any clause") loc jσ.2).2 with hd6
        set σ7 := (emit_const (.sym "MatchError") loc σ6).2 with hd7
        set σ8 := emit_op (.loag "raise") loc σ7 with hd8
        set σ9 := emit_op (.call 2) loc σ8 with hd9
        have h1 := expr_ecx scrutinee σ hne hinv
        have h2 := ECX_emit_unique_snd h1 loc
        have h3 := ECX_emit_const_snd h2 loc (v := .str "Starting match")
          valuePushOk_str valueJumpsOk_str
        have h4 := ECX_emit_clean h3 .pop loc rfl (by intro i h; cases h)
        have h5 := armLoop_ecx tσ.1 loc arms σ4 h4.ne h4.inv
        have h6 := ECX_trans h4 h5
        have h7 := ECX_emit_const_snd h6 loc
          (v := .str "Couldn\u0027t match any clause") valuePushOk_str valueJumpsOk_str
        have h8 := ECX_emit_const_snd h7 loc (v := .sym "MatchError")
          valuePushOk_sym valueJumpsOk_sym
        have h9 := ECX_emit_clean h8 (.loag "raise") loc rfl
          (by intro i h; cases h)
        have h10 := ECX_emit_clean h9 (.call 2) loc rfl (by intro i h; cases h)
        have h11 := ECX_patchList (S := []) (J := jσ.1) (L := ip σ9) rfl
          (ECX_congr_sites h10 (by
            intro x
            simp [hd5, hd4, hd3, hd2, hd1]))
        exact h11
    | letE bind value body =>
        intro σ hne hinv
        have h1 := expr_ecx value σ hne hinv
        have h2 := match_pattern_ecx bind false loc _ h1.ne h1.inv
        have h3 := EC_ecx_trans h1 h2
        have h4 := ECX_ec_trans h3 (expr_ecx body _ h3.ne h3.inv)
        have h5 := ECX_removeDecls h4
          (match_pattern bind false loc (expr value σ)).1.1
        exact matchErrorTail_ec (l := loc) h5
    | defE bind value body =>
        intro σ hne hinv
        have h1 := expr_ecx value σ hne hinv
        have h2 := ECX_emit_save h1 bind loc
        exact ECX_ec_trans h2 (expr_ecx body _ h2.ne h2.inv)
    | binary left op right =>
        intro σ hne hinv
        cases op with
        | and =>
            set σ1 := expr left σ with hd1
            set σ2 := emit_op .dup loc σ1 with hd2
            set σ3 := emit_op (.jmf 0) loc σ2 with hd3
            set σ4 := emit_op .pop loc σ3 with hd4
            set σ5 := expr right σ4 with hd5
            have h1 := expr_ecx left σ hne hinv
            have h2 := ECX_emit_clean h1 .dup loc rfl (by intro i h; cases h)
            have h3 := ECX_emit_ph h2 loc (o := .jmf 0) (a := 0) rfl
            have h4 := ECX_emit_clean h3 .pop loc rfl (by intro i h; cases h)
            have h5 := ECX_ec_trans h4 (expr_ecx right _ h4.ne h4.inv)
            have h5b := ECX_congr_sites (T := [ip σ2]) h5
              (by intro x; simp only [hd1, hd2, ip, opsOf, List.mem_cons])
            have h6 := ECX_patchOne (t := ip σ2) (o := .jmf (ip σ5)) h5b
              (by simp) rfl
            rw [List.erase_cons_head] at h6
            exact h6
        | or =>
            set σ1 := expr left σ with hd1
            set σ2 := emit_op .dup loc σ1 with hd2
            set σ2b := emit_op .not loc σ2 with hd2b
            set σ3 := emit_op (.jmf 0) loc σ2b with hd3
            set σ4 := emit_op .pop loc σ3 with hd4
            set σ5 := expr right σ4 with hd5
            have h1 := expr_ecx left σ hne hinv
            have h2 := ECX_emit_clean h1 .dup loc rfl (by intro i h; cases h)
            have h2b := ECX_emit_clean h2 .not loc rfl (by intro i h; cases h)
            have h3 := ECX_emit_ph h2b loc (o := .jmf 0) (a := 0) rfl
            have h4 := ECX_emit_clean h3 .pop loc rfl (by intro i h; cases h)
            have h5 := ECX_ec_trans h4 (expr_ecx right _ h4.ne h4.inv)
            have h5b := ECX_congr_sites (T := [ip σ2b]) h5
              (by intro x
                  simp only [hd1, hd2, hd2b, ip, opsOf, List.mem_cons])
            have h6 := ECX_patchOne (t := ip σ2b) (o := .jmf (ip σ5)) h5b
              (by simp) rfl
            rw [List.erase_cons_head] at h6
            exact h6
        | add =>
            have h1 := expr_ecx left σ hne hinv
            have h2 := ECX_ec_trans h1 (expr_ecx right _ h1.ne h1.inv)
            exact ECX_emit_ops_clean h2 (by
              intro o ho
              simp only [binOpOps, List.mem_cons, List.not_mem_nil, or_false] at ho
              subst ho
              exact ⟨rfl, fun i h => by cases h⟩)
        | sub =>
            have h1 := expr_ecx left σ hne hinv
            have h2 := ECX_ec_trans h1 (expr_ecx right _ h1.ne h1.inv)
            exact ECX_emit_ops_clean h2 (by
              intro o ho
              simp only [binOpOps, List.mem_cons, List.not_mem_nil, or_false] at ho
              subst ho
              exact ⟨rfl, fun i h => by cases h⟩)
        | mul =>
            have h1 := expr_ecx left σ hne hinv
            have h2 := ECX_ec_trans h1 (expr_ecx right _ h1.ne h1.inv)
            exact ECX_emit_ops_clean h2 (by
              intro o ho
              simp only [binOpOps, List.mem_cons, List.not_mem_nil, or_false] at ho
              subst ho
              exact ⟨rfl, fun i h => by cases h⟩)
        | div =>
            have h1 := expr_ecx left σ hne hinv
            have h2 := ECX_ec_trans h1 (expr_ecx right _ h1.ne h1.inv)
            exact ECX_emit_ops_clean h2 (by
              intro o ho
              simp only [binOpOps, List.mem_cons, List.not_mem_nil, or_false] at ho
              subst ho
              exact ⟨rfl, fun i h => by cases h⟩)
        | eqB =>
            have h1 := expr_ecx left σ hne hinv
            have h2 := ECX_ec_trans h1 (expr_ecx right _ h1.ne h1.inv)
            exact ECX_emit_ops_clean h2 (by
              intro o ho
              simp only [binOpOps, List.mem_cons, List.not_mem_nil, or_false] at ho
              subst ho
              exact ⟨rfl, fun i h => by cases h⟩)
        | neB =>
            have h1 := expr_ecx left σ hne hinv
            have h2 := ECX_ec_trans h1 (expr_ecx right _ h1.ne h1.inv)
            exact ECX_emit_ops_clean h2 (by
              intro o ho
              simp only [binOpOps, List.mem_cons, List.not_mem_nil, or_false] at ho
              rcases ho with ho | ho <;> subst ho <;>
                exact ⟨rfl, fun i h => by cases h⟩)
    | listE xs =>
        intro σ hne hinv
        have h1 := exprList_ecx xs σ hne hinv
        have h2 := ECX_emit_const_snd h1 loc (v := .list [])
          valuePushOk_emptyList valueJumpsOk_emptyList
        exact ECX_emit_ops_clean h2 (by
          intro o ho
          have := List.eq_of_mem_replicate ho
          subst this
          exact ⟨rfl, fun i h => by cases h⟩)
    | cons head tail =>
        intro σ hne hinv
        have h1 := expr_ecx head σ hne hinv
        have h2 := ECX_ec_trans h1 (expr_ecx tail _ h1.ne h1.inv)
        exact ECX_emit_clean h2 .prep loc rfl (by intro i h; cases h)
    | unOp op right =>
        intro σ hne hinv
        have h1 := expr_ecx right σ hne hinv
        exact ECX_emit_ops_clean h1 (by
          intro o ho
          cases op <;>
            simp only [unOpOps, List.mem_cons, List.not_mem_nil, or_false] at ho <;>
            subst ho <;> exact ⟨rfl, fun i h => by cases h⟩)
    | methodRef ty method =>
        intro σ hne hinv
        have h1 := expr_ecx ty σ hne hinv
        exact ECX_emit_clean h1 (.ref method) loc rfl (by intro i h; cases h)
    | tryE body bind rescue =>
        intro σ hne hinv
        set σ1 := emit_op (.tryC 0) loc σ with hd1
        set σ2 := expr body σ1 with hd2
        set σ3 := emit_op .endTry loc σ2 with hd3
        set σ4 := emit_op (.jmp 0) loc σ3 with hd4
        set σ5 := patchOp (ip σ) (.tryC (ip σ4)) σ4 with hd5
        set σ6 := emit_op .pop loc σ5 with hd6
        set σ7 := emit_save bind loc σ6 with hd7
        set σ8 := expr rescue σ7 with hd8
        have h1 := ECX_emit_ph (EC_refl hne hinv) loc (o := .tryC 0) (a := 0) rfl
        have h2 := ECX_ec_trans h1 (expr_ecx body _ h1.ne h1.inv)
        have h3 := ECX_emit_clean h2 .endTry loc rfl (by intro i h; cases h)
        have h4 := ECX_emit_ph h3 loc (o := .jmp 0) (a := 0) rfl
        have h4b := ECX_congr_sites (T := [ip σ, ip σ3]) h4
          (by intro x; simp only [hd1, hd2, hd3, ip, opsOf, List.mem_cons]; tauto)
        have h5 := ECX_patchOne (t := ip σ) (o := .tryC (ip σ4)) h4b
          (by simp) rfl
        rw [List.erase_cons_head] at h5
        have h6 := ECX_emit_clean h5 .pop loc rfl (by intro i h; cases h)
        have h7 := ECX_emit_save h6 bind loc
        have h8 := ECX_ec_trans h7 (expr_ecx rescue _ h7.ne h7.inv)
        have h9 := ECX_patchOne (t := ip σ3) (o := .jmp (ip σ8)) h8
          (by simp) rfl
        rw [List.erase_cons_head] at h9
        exact h9
    | tuple xs =>
        intro σ hne hinv
        have h1 := exprListRev_ecx xs σ hne hinv
        exact ECX_emit_clean h1 (.tup xs.length) loc rfl (by intro i h; cases h)
  termination_by structural e

/-- `exprList` satisfies the emission contract. -/
theorem exprList_ecx (es : List Expr) : ∀ (σ : CompilerState),
    σ.scope_stack ≠ [] → Inv σ → EC σ (exprList es σ) := by
  cases es with
  | nil =>
      intro σ hne hinv
      exact EC_refl hne hinv
  | cons e es =>
      intro σ hne hinv
      have h1 := expr_ecx e σ hne hinv
      exact ECX_ec_trans h1 (exprList_ecx es _ h1.ne h1.inv)
  termination_by structural es

/-- `exprListRev` satisfies the emission contract. -/
theorem exprListRev_ecx (es : List Expr) : ∀ (σ : CompilerState),
    σ.scope_stack ≠ [] → Inv σ → EC σ (exprListRev es σ) := by
  cases es with
  | nil =>
      intro σ hne hinv
      exact EC_refl hne hinv
  | cons e es =>
      intro σ hne hinv
      have h1 := exprListRev_ecx es σ hne hinv
      exact ECX_ec_trans h1 (expr_ecx e _ h1.ne h1.inv)
  termination_by structural es

/-- `armLoop` satisfies the emission contract, with the arms' end-jump patch
sites as the still-open placeholder sites. -/
theorem armLoop_ecx (tmp : String) (loc : Location) (arms : List MatchArm) :
    ∀ (σ : CompilerState), σ.scope_stack ≠ [] → Inv σ →
      ECX (armLoop tmp loc arms σ).1 σ (armLoop tmp loc arms σ).2 := by
  cases arms with
  | nil =>
      intro σ hne hinv
      exact EC_refl hne hinv
  | cons arm rest =>
      cases arm with
      | mk cond guard body armLoc =>
        intro σ hne hinv
        cases guard with
        | none =>
            set σ1 := emit_load tmp loc σ with hd1
            set r := match_pattern cond false armLoc σ1 with hd2
            set σc := expr body r.2 with hd3
            set σd := removeDecls r.1.1 σc with hd4
            set σe := emit_op (.jmp 0) armLoc σd with hd5
            set σf := patchJmfSites r.1.2 σe with hd6
            have h1 := ECX_emit_load (EC_refl hne hinv) tmp loc
            have h2 := match_pattern_ecx cond false armLoc _ h1.ne h1.inv
            have h3 := ECX_trans h1 h2
            have h4 := ECX_ec_trans h3 (expr_ecx body _ h3.ne h3.inv)
            have h5 := ECX_removeDecls h4 r.1.1
            have h6 := ECX_emit_ph h5 armLoc (o := .jmp 0) (a := 0) rfl
            have h7 := ECX_patchJmfSites (S := [ip σd]) (F := r.1.2)
              (ECX_congr_sites h6 (by
                intro x
                simp only [hd1, hd2, hd3, hd4, ip, opsOf, List.mem_cons,
                  List.mem_append, List.not_mem_nil, or_false, List.nil_append]
                tauto))
            have h8 := armLoop_ecx tmp loc rest _ h7.ne h7.inv
            have h9 := ECX_trans h7 h8
            exact h9
        | some g =>
            set σ1 := emit_load tmp loc σ with hd1
            set r := match_pattern cond false armLoc σ1 with hd2
            set σg := expr g r.2 with hd2b
            set σgj := emit_op (.jmf 0) armLoc σg with hd2c
            set σc := expr body σgj with hd3
            set σd := removeDecls r.1.1 σc with hd4
            set σe := emit_op (.jmp 0) armLoc σd with hd5
            set σf := patchJmfSites r.1.2 σe with hd6
            set σh := patchOp (ip σg) (.jmf (ip σf)) σf with hd7
            have h1 := ECX_emit_load (EC_refl hne hinv) tmp loc
            have h2 := match_pattern_ecx cond false armLoc _ h1.ne h1.inv
            have h3 := ECX_trans h1 h2
            have h3b := ECX_ec_trans h3 (expr_ecx g _ h3.ne h3.inv)
            have h3c := ECX_emit_ph h3b armLoc (o := .jmf 0) (a := 0) rfl
            have h4 := ECX_ec_trans h3c (expr_ecx body _ h3c.ne h3c.inv)
            have h5 := ECX_removeDecls h4 r.1.1
            have h6 := ECX_emit_ph h5 armLoc (o := .jmp 0) (a := 0) rfl
            have h7 := ECX_patchJmfSites (S := [ip σd, ip σg]) (F := r.1.2)
              (ECX_congr_sites h6 (by
                intro x
                simp only [hd1, hd2, hd2b, hd2c, hd3, hd4, ip, opsOf,
                  List.mem_cons, List.mem_append, List.not_mem_nil, or_false,
                  List.nil_append]
                tauto))
            have h7b := ECX_congr_sites (T := [ip σg, ip σd]) h7
              (by intro x; simp only [List.mem_cons]; tauto)
            have h8 := ECX_patchOne (t := ip σg) (o := .jmf (ip σf)) h7b
              (by simp) rfl
            rw [List.erase_cons_head] at h8
            have h9 := armLoop_ecx tmp loc rest _ h8.ne h8.inv
            have h10 := ECX_trans h8 h9
            exact h10
  termination_by structural arms
end



/-! Contracts for type declarations and statements. -/

theorem fieldsPushOk_tableInsert {C : Nat} {k : String} {v : Value}
    (hv : ValuePushOk C v) :
    ∀ {tbl : List (String × Value)}, FieldsPushOk C tbl →
      FieldsPushOk C (tableInsert tbl k v) := by
  intro tbl
  induction tbl with
  | nil =>
      intro _
      exact ⟨hv, trivial⟩
  | cons p rest ih =>
      obtain ⟨kp, vp⟩ := p
      intro h
      rw [tableInsert]
      by_cases he : kp = k
      · rw [if_pos he]
        exact ⟨hv, h.2⟩
      · rw [if_neg he]
        exact ⟨h.1, ih h.2⟩

theorem fieldsJumpsOk_tableInsert {k : String} {v : Value}
    (hv : ValueJumpsOk v) :
    ∀ {tbl : List (String × Value)}, FieldsJumpsOk tbl →
      FieldsJumpsOk (tableInsert tbl k v) := by
  intro tbl
  induction tbl with
  | nil =>
      intro _
      exact ⟨hv, trivial⟩
  | cons p rest ih =>
      obtain ⟨kp, vp⟩ := p
      intro h
      rw [tableInsert]
      by_cases he : kp = k
      · rw [if_pos he]
        exact ⟨hv, h.2⟩
      · rw [if_neg he]
        exact ⟨h.1, ih h.2⟩

theorem fieldsOk_fold_tagged {C : Nat} (d : String) :
    ∀ (pl : List (String × String)) (tbl : List (String × Value)),
      FieldsPushOk C tbl → FieldsJumpsOk tbl →
      FieldsPushOk C
        (pl.foldl (fun tbl pe => tableInsert tbl pe.2 (.tagged d pe.1 [])) tbl)
      ∧ FieldsJumpsOk
        (pl.foldl (fun tbl pe => tableInsert tbl pe.2 (.tagged d pe.1 [])) tbl) := by
  intro pl
  induction pl with
  | nil =>
      intro tbl hfp hfj
      exact ⟨hfp, hfj⟩
  | cons pe rest ih =>
      intro tbl hfp hfj
      rw [List.foldl_cons]
      exact ih _
        (fieldsPushOk_tableInsert (v := .tagged d pe.1 []) (by exact trivial) hfp)
        (fieldsJumpsOk_tableInsert (v := .tagged d pe.1 []) (by exact trivial) hfj)

theorem typeMembers_steps (loc : Location) :
    ∀ (members : List Def) (tbl : List (String × Value)) (σ : CompilerState),
      σ.scope_stack ≠ [] → Inv σ →
      FieldsPushOk σ.constants.length tbl → FieldsJumpsOk tbl →
      EC σ (typeMembers loc members tbl σ).2
      ∧ opsOf (typeMembers loc members tbl σ).2 = opsOf σ
      ∧ FieldsPushOk (typeMembers loc members tbl σ).2.constants.length
          (typeMembers loc members tbl σ).1
      ∧ FieldsJumpsOk (typeMembers loc members tbl σ).1 := by
  intro members
  induction members with
  | nil =>
      intro tbl σ hne hinv hfp hfj
      exact ⟨EC_refl hne hinv, rfl, hfp, hfj⟩
  | cons m rest ih =>
      intro tbl σ hne hinv hfp hfj
      obtain ⟨bind, val⟩ := m
      obtain ⟨kind, eloc⟩ := val
      cases kind
      case lambda args body =>
        simp only [typeMembers]
        have hl := lambda_expr_steps args loc hne hinv
          (fun σb hb hi => expr_ecx body σb hb hi)
        have hEC := hl.1
        have hlen : σ.constants.length
            ≤ (lambda_expr args body loc σ).2.constants.length :=
          hEC.cpfx.length_le
        have hsub := ih (tableInsert tbl bind (.fn (lambda_expr args body loc σ).1))
          (lambda_expr args body loc σ).2 hEC.ne hEC.inv
          (fieldsPushOk_tableInsert hl.2.1 (fieldsPushOk_mono hlen hfp))
          (fieldsJumpsOk_tableInsert hl.2.2.1 hfj)
        refine ⟨ECX_ec_trans hEC hsub.1, ?_, hsub.2.2.1, hsub.2.2.2⟩
        rw [hsub.2.1, hl.2.2.2]
      all_goals exact ih tbl σ hne hinv hfp hfj

theorem typeVariants_state (index : Nat) (loc : Location) :
    ∀ (vs : List (String × List String)) (pl : List (String × String))
      (tbl : List (String × Value)) (σ : CompilerState),
      (typeVariants index loc vs pl tbl σ).2.2 = σ := by
  intro vs
  induction vs with
  | nil =>
      intro pl tbl σ
      rfl
  | cons v rest ih =>
      intro pl tbl σ
      rw [typeVariants]
      by_cases he : v.2.isEmpty
      · rw [if_pos he]
        exact ih _ _ _
      · rw [if_neg he]
        exact ih _ _ _

theorem ctorPushOk {C index n : Nat} {name : String} {loc : Location}
    (hidx : index < C) :
    FnPushOk C (Fn.mk [⟨.tup n, loc.line, loc.column⟩,
      ⟨.push index, loc.line, loc.column⟩,
      ⟨.tag name, loc.line, loc.column⟩] n) := by
  intro m hm i hi
  rcases List.mem_cons.mp hm with h | h
  · subst h
    have h2 : OpCode.tup n = OpCode.push i := hi
    cases h2
  rcases List.mem_cons.mp h with h | h
  · subst h
    have h2 : OpCode.push index = OpCode.push i := hi
    injection h2 with h3
    omega
  rcases List.mem_cons.mp h with h | h
  · subst h
    have h2 : OpCode.tag name = OpCode.push i := hi
    cases h2
  · cases h

theorem ctorJumpsOk {index n : Nat} {name : String} {loc : Location} :
    FnJumpsOk (Fn.mk [⟨.tup n, loc.line, loc.column⟩,
      ⟨.push index, loc.line, loc.column⟩,
      ⟨.tag name, loc.line, loc.column⟩] n) := by
  intro i m a _ _ hget htg
  have hm := List.get?_mem hget
  rcases List.mem_cons.mp hm with h | h
  · subst h
    simp [jumpTarget] at htg
  rcases List.mem_cons.mp h with h | h
  · subst h
    simp [jumpTarget] at htg
  rcases List.mem_cons.mp h with h | h
  · subst h
    simp [jumpTarget] at htg
  · cases h

theorem typeVariants_tbl {C : Nat} (index : Nat) (loc : Location)
    (hidx : index < C) :
    ∀ (vs : List (String × List String)) (pl : List (String × String))
      (tbl : List (String × Value)) (σ : CompilerState),
      FieldsPushOk C tbl → FieldsJumpsOk tbl →
      FieldsPushOk C (typeVariants index loc vs pl tbl σ).2.1
      ∧ FieldsJumpsOk (typeVariants index loc vs pl tbl σ).2.1 := by
  intro vs
  induction vs with
  | nil =>
      intro pl tbl σ hfp hfj
      exact ⟨hfp, hfj⟩
  | cons v rest ih =>
      intro pl tbl σ hfp hfj
      rw [typeVariants]
      by_cases he : v.2.isEmpty
      · rw [if_pos he]
        exact ih _ _ _ hfp hfj
      · rw [if_neg he]
        refine ih _ _ _ (fieldsPushOk_tableInsert ?_ hfp)
          (fieldsJumpsOk_tableInsert ?_ hfj)
        · simp only [ValuePushOk]
          exact ctorPushOk hidx
        · simp only [ValueJumpsOk]
          exact ctorJumpsOk


/-- The next constant-pool index of a type declaration: the pool size after
the member phase (`self.constants.len()` at the reserve point of `type_`). -/
def typeIndex (members : List Def) (loc : Location) (σ : CompilerState) : Nat :=
  (typeMembers loc members [] σ).2.constants.length

/-- The finalized field table of a type declaration: the member table
extended by the variant constructors and the nullary tagged values. -/
def typeFields (decl : String) (variants : List (String × List String))
    (members : List Def) (loc : Location) (σ : CompilerState) :
    List (String × Value) :=
  let tblσ := typeMembers loc members [] σ
  let pvσ := typeVariants tblσ.2.constants.length loc variants [] tblσ.1
    { tblσ.2 with constants := tblσ.2.constants ++ [Value.module (.mk "" [])] }
  pvσ.1.foldl (fun tbl pe => tableInsert tbl pe.2 (.tagged decl pe.1 [])) pvσ.2.1

theorem pool_set_append (σ0 : CompilerState) (ph m : Value) :
    ({ ({ σ0 with constants := σ0.constants ++ [ph] } : CompilerState) with
        constants := (σ0.constants ++ [ph]).set σ0.constants.length m }
      : CompilerState)
      = { σ0 with constants := σ0.constants ++ [m] } := by
  have h : (σ0.constants ++ [ph]).set σ0.constants.length m
      = σ0.constants ++ [m] := by
    simp
  rw [h]

theorem type_eq_append (decl : String) (variants : List (String × List String))
    (members : List Def) (loc : Location) (σ : CompilerState) :
    type_ decl variants members loc σ =
      emit_op (.savg decl) loc (emit_op (.push (typeIndex members loc σ)) loc
        { (typeMembers loc members [] σ).2 with
          constants := (typeMembers loc members [] σ).2.constants
            ++ [Value.module (.mk decl
                  (typeFields decl variants members loc σ))] }) := by
  simp only [type_, typeIndex, typeFields]
  rw [typeVariants_state]
  exact congrArg _ (congrArg _ (pool_set_append _ _ _))

theorem type_ec {decl : String} {variants : List (String × List String)}
    {members : List Def} {loc : Location} {σ : CompilerState}
    (hne : σ.scope_stack ≠ []) (hinv : Inv σ) :
    EC σ (type_ decl variants members loc σ) := by
  have hM := typeMembers_steps loc members [] σ hne hinv trivial trivial
  have hidxlt : (typeMembers loc members [] σ).2.constants.length
      < (typeMembers loc members [] σ).2.constants.length + 1 := by omega
  have htbl := typeVariants_tbl (typeMembers loc members [] σ).2.constants.length
    loc hidxlt variants [] (typeMembers loc members [] σ).1
    { (typeMembers loc members [] σ).2 with
      constants := (typeMembers loc members [] σ).2.constants
        ++ [Value.module (.mk "" [])] }
    (fieldsPushOk_mono (by omega) hM.2.2.1) hM.2.2.2
  have hfall : FieldsPushOk ((typeMembers loc members [] σ).2.constants.length + 1)
        (typeFields decl variants members loc σ)
      ∧ FieldsJumpsOk (typeFields decl variants members loc σ) := by
    simp only [typeFields]
    exact fieldsOk_fold_tagged decl _ _ htbl.1 htbl.2
  have h4 := ECX_pool_append hM.1
    (v := Value.module (.mk decl (typeFields decl variants members loc σ)))
    (by simp only [ValuePushOk]; exact hfall.1)
    (by simp only [ValueJumpsOk]; exact hfall.2)
    (Or.inr rfl)
  have h5 := ECX_emit_op h4 (.push (typeIndex members loc σ)) loc
    (by intro a ht; simp [jumpTarget] at ht)
    (by
      intro i hi
      injection hi with h
      subst h
      show typeIndex members loc σ
        < ((typeMembers loc members [] σ).2.constants
            ++ [Value.module (.mk decl (typeFields decl variants members loc σ))]).length
      simp only [typeIndex, List.length_append, List.length_cons, List.length_nil]
      omega)
  have h6 := ECX_emit_clean h5 (.savg decl) loc rfl (by intro i h; cases h)
  rw [type_eq_append]
  exact h6

theorem initState_ne : initState.scope_stack ≠ [] :=
  fun h => List.noConfusion h

theorem stmt_ec {node : Stmt} {σ : CompilerState} (hne : σ.scope_stack ≠ [])
    (hinv : Inv σ) : EC σ (stmt node σ) := by
  obtain ⟨kind, loc⟩ := node
  cases kind with
  | defS d =>
      have h1 := expr_ecx d.value σ hne hinv
      have h2 := ECX_emit_clean h1 (.savg d.bind) loc rfl (by intro i h; cases h)
      exact ECX_counter h2 0
  | letS bind value =>
      have h1 := expr_ecx value σ hne hinv
      have h2 := match_pattern_ecx bind true loc _ h1.ne h1.inv
      have h3 := EC_ecx_trans h1 h2
      have h4 := matchErrorTail_ec (l := loc) h3
      exact ECX_counter h4 0
  | typeS name variants members =>
      exact ECX_counter (type_ec hne hinv) 0

theorem stmts_fold_ec : ∀ (ss : List Stmt) (σ : CompilerState),
    σ.scope_stack ≠ [] → Inv σ →
    EC σ (ss.foldl (fun σ s => stmt s σ) σ) := by
  intro ss
  induction ss with
  | nil =>
      intro σ hne hinv
      exact EC_refl hne hinv
  | cons s rest ih =>
      intro σ hne hinv
      rw [List.foldl_cons]
      have h1 : EC σ (stmt s σ) := stmt_ec hne hinv
      exact ECX_ec_trans h1 (ih _ h1.ne h1.inv)

theorem compile_expr_ec (e : Expr) : EC initState (expr e initState) :=
  expr_ecx e initState initState_ne inv_initState

theorem compile_stmts_state_ec (ss : List Stmt) :
    EC initState (ss.foldl (fun σ s => stmt s σ) initState) :=
  stmts_fold_ec ss initState initState_ne inv_initState

theorem segClosed_mem {ops : List OpCodeMetadata} (h : SegClosed 0 ops) :
    ∀ m ∈ ops, ∀ a, jumpTarget m.opcode = some a → 0 < a ∧ a ≤ ops.length := by
  intro m hm a htg
  obtain ⟨i, hi⟩ := List.mem_iff_get?.mp hm
  exact h i m a (Nat.zero_le i) (List.not_mem_nil i) hi htg


/-! Buffer and local-map effects of the emission primitives, used to state
the per-construct claims. -/

theorem emit_op_ops {o : OpCode} {l : Location} {σ : CompilerState}
    (h : σ.scope_stack ≠ []) :
    opsOf (emit_op o l σ) = opsOf σ ++ [⟨o, l.line, l.column⟩]
    ∧ (emit_op o l σ).scope_stack ≠ [] := by
  rw [emit_op_eq h]
  exact ⟨rfl, by simp⟩

theorem emit_op_constants {o : OpCode} {l : Location} {σ : CompilerState} :
    (emit_op o l σ).constants = σ.constants := by
  obtain ⟨st, c, u⟩ := σ
  cases st <;> rfl

theorem emit_const_ops {v : Value} {l : Location} {σ : CompilerState}
    (h : σ.scope_stack ≠ []) :
    opsOf (emit_const v l σ).2
      = opsOf σ ++ [⟨.push (emit_const v l σ).1, l.line, l.column⟩]
    ∧ (emit_const v l σ).2.scope_stack ≠ [] := by
  cases hm : v.isModule with
  | true =>
      rw [emit_const_eq_module hm]
      exact ⟨(emit_op_ops (σ := { σ with constants := σ.constants ++ [v] }) h).1,
        (emit_op_ops (σ := { σ with constants := σ.constants ++ [v] }) h).2⟩
  | false =>
      cases hf : σ.constants.findIdx? (fun c => valueBEq c v) with
      | some idx =>
          rw [emit_const_eq_found hm hf]
          exact ⟨(emit_op_ops h).1, (emit_op_ops h).2⟩
      | none =>
          rw [emit_const_eq_new hm hf]
          exact ⟨(emit_op_ops (σ := { σ with constants := σ.constants ++ [v] }) h).1,
            (emit_op_ops (σ := { σ with constants := σ.constants ++ [v] }) h).2⟩

theorem emit_ops_ops {l : Location} :
    ∀ (ops : List OpCode) (σ : CompilerState), σ.scope_stack ≠ [] →
      opsOf (emit_ops ops l σ)
        = opsOf σ ++ ops.map (fun o => (⟨o, l.line, l.column⟩ : OpCodeMetadata))
      ∧ (emit_ops ops l σ).scope_stack ≠ [] := by
  intro ops
  induction ops with
  | nil =>
      intro σ h
      rw [emit_ops, List.foldl_nil]
      exact ⟨by simp, h⟩
  | cons o os ih =>
      intro σ h
      rw [emit_ops, List.foldl_cons, ← emit_ops]
      have h1 := emit_op_ops (o := o) (l := l) h
      have h2 := ih _ h1.2
      refine ⟨?_, h2.2⟩
      rw [h2.1, h1.1]
      simp

theorem patchOp_locals {i : Nat} {o : OpCode} {σ : CompilerState} :
    (curScope (patchOp i o σ)).locals = (curScope σ).locals := by
  rw [patchOp]
  cases hs : σ.scope_stack with
  | nil => simp [withScope, hs]
  | cons s rest =>
      simp only [withScope, hs]
      cases hm : s.opcodes.get? i <;> simp [curScope, hs, hm]

theorem emit_op_locals {o : OpCode} {l : Location} {σ : CompilerState}
    (h : σ.scope_stack ≠ []) :
    (curScope (emit_op o l σ)).locals = (curScope σ).locals := by
  rw [emit_op_eq h]
  rfl

theorem alookup_append_missing {b : String} {i : Nat} :
    ∀ {l : List (String × Nat)}, alookup l b = none →
      alookup (l ++ [(b, i)]) b = some i := by
  intro l
  induction l with
  | nil =>
      intro _
      simp [alookup]
  | cons p rest ih =>
      obtain ⟨k, v⟩ := p
      intro h
      rw [alookup] at h
      rw [List.cons_append, alookup]
      by_cases he : k = b
      · rw [if_pos he] at h
        cases h
      · rw [if_neg he] at h
        rw [if_neg he]
        exact ih h

theorem emit_save_lookup {b : String} {l : Location} {σ : CompilerState}
    (h : σ.scope_stack ≠ []) :
    ∃ i, alookup (curScope (emit_save b l σ)).locals b = some i := by
  cases hlk : alookup (curScope σ).locals b with
  | some idx =>
      rw [emit_save_eq_found hlk]
      refine ⟨idx, ?_⟩
      rw [emit_op_locals h]
      exact hlk
  | none =>
      rw [emit_save_eq_fresh hlk]
      have h2 : (withScope
          (fun s =>
            { s with
              locals := s.locals ++ [(b, (curScope σ).locals.length)],
              assigns := s.assigns ++ [(curScope σ).locals.length] })
          σ).scope_stack ≠ [] := by
        rw [withScope_eq h]
        simp
      refine ⟨(curScope σ).locals.length, ?_⟩
      rw [emit_op_locals h2, withScope_eq h]
      exact alookup_append_missing hlk

theorem expr_var_load {name : String} {l : Location} {σ : CompilerState}
    {idx : Nat} (h : alookup (curScope σ).locals name = some idx) :
    expr (.mk (.var name) l) σ = emit_op (.load idx) l σ := by
  show (match alookup (curScope σ).locals name with
        | some i => emit_op (.load i) l σ
        | none => emit_op (.loag name) l σ) = emit_op (.load idx) l σ
  rw [h]

theorem findIdx?_some_get {α : Type} {p : α → Bool} :
    ∀ {l : List α} {n i : Nat}, List.findIdx? p l n = some i →
      ∃ a, l.get? (i - n) = some a ∧ p a = true := by
  intro l
  induction l with
  | nil =>
      intro n i h
      simp [List.findIdx?] at h
  | cons a as ih =>
      intro n i h
      rw [List.findIdx?] at h
      by_cases hpa : p a
      · simp [hpa] at h
        subst h
        exact ⟨a, by simp, hpa⟩
      · simp only [hpa, cond_false] at h
        obtain ⟨x, hx, hpx⟩ := ih h
        refine ⟨x, ?_, hpx⟩
        have hb := findIdx?_some_bound h
        have he : i - n = (i - (n + 1)) + 1 := by omega
        rw [he]
        simpa using hx

end Compiler

/-! ### Claims -/

namespace Compiler

/-- C10: the prelude function `List.head` raises an error if and only if its
argument is not a list; applied to the empty list it returns `nil` rather
than failing, and applied to a non-empty list it returns the first
element. -/
theorem C10_head :
    (∀ c : Vm.Constant, (∃ msg, Vm.head c = .error msg) ↔ Vm.Constant.isList c = false)
    ∧ Vm.head (.list []) = .ok .nil
    ∧ (∀ (x : Vm.Constant) (xs : List Vm.Constant), Vm.head (.list (x :: xs)) = .ok x) := by
  refine ⟨fun c => ?_, rfl, fun x xs => rfl⟩
  cases c with
  | list xs =>
      cases xs <;> simp [Vm.head, Vm.Constant.isList]
  | _ => simp [Vm.head, Vm.Constant.isList]

/-- Witness for C10: concrete instances of each part. -/
theorem C10_head_witness :
    Vm.head (.list [.num 5, .num 6]) = .ok (.num 5)
    ∧ (∃ msg, Vm.head (.num 7) = .error msg) := by
  exact ⟨C10_head.2.2 (.num 5) [.num 6], (C10_head.1 (.num 7)).mpr rfl⟩

/-- C2 counterexample: compiling `let x = 1 in x + 2` does not produce the
constant pool `[1, 2]`: the raise-MatchError tail interns two further
constants, the error string and the `MatchError` symbol, so the pool has
four entries. -/
theorem C2_counterexample :
    (compile_expr c2Expr).2 =
      [.num 1, .num 2, .str "No match of rhs value", .sym "MatchError"]
    ∧ (compile_expr c2Expr).2.length ≠ 2 := by
  exact ⟨rfl, by decide⟩

/-- C2 (amended): compiling `let x = 1 in x + 2` produces the constant pool
`[1, 2, "No match of rhs value", :MatchError]` and the opcode sequence
`Push(0); Save(0); Load(0); Push(1); Add; Jmp(end)` followed by the
raise-MatchError tail, with `end = 10` the address after that tail. -/
theorem C2_amended :
    (compile_expr c2Expr).1 =
      [⟨.push 0, 1, 1⟩, ⟨.save 0, 1, 1⟩, ⟨.load 0, 1, 1⟩, ⟨.push 1, 1, 1⟩,
       ⟨.add, 1, 1⟩, ⟨.jmp 10, 1, 1⟩, ⟨.push 2, 1, 1⟩, ⟨.push 3, 1, 1⟩,
       ⟨.loag "raise", 1, 1⟩, ⟨.call 2, 1, 1⟩]
    ∧ (compile_expr c2Expr).2 =
      [.num 1, .num 2, .str "No match of rhs value", .sym "MatchError"]
    ∧ (compile_expr c2Expr).1.length = 10 := by
  exact ⟨rfl, rfl, rfl⟩

/-- C1 counterexample: compiling the match expression `c1Expr` assigns, in
one single scope, the ghost-logged slot-index sequence `[0, 1, 2, 3, 4, 3]`:
index 3 is assigned first to the pattern temporary `#3` and later, after the
first arm's declarations have been removed from the map, to the second arm's
binding `c` — so an index is assigned twice within one scope, refuting the
no-reassignment half of the claim. -/
theorem C1_counterexample :
    (curScope (compileExprState c1Expr)).assigns = [0, 1, 2, 3, 4, 3]
    ∧ ¬ (curScope (compileExprState c1Expr)).assigns.Nodup := by
  exact ⟨rfl, by decide⟩

/-- C9 counterexample: compiling `def x = 1 in (try (let x = 2 in x) rescue
e => 3)` reaches the state `c9PreState` in which `x` occupies local slot 0;
the try emission then removes `x` from the local map (the `let` inside the
try body binds the same name and removes it after its body), so an entry of
the local map other than the rescue binding is changed by the try
emission. -/
theorem C9_counterexample :
    alookup (curScope c9PreState).locals "x" = some 0
    ∧ compileExprState c9Expr = expr c9Try c9PreState
    ∧ alookup (curScope (expr c9Try c9PreState)).locals "x" = none := by
  exact ⟨rfl, rfl, rfl⟩

/-- C3 counterexample: for the type declaration `c3Stmt` compiled from a
fresh compiler, the constant-pool slot of the module is index 2, after the
two constants interned while compiling the member's lambda; slot 0 holds the
lambda's error string, not a placeholder module.  Had the reserve happened
before member compilation as the claim states, the module would occupy
slot 0. -/
theorem C3_counterexample :
    (compile_stmts [c3Stmt]).2.getD 0 .nil = .str "No match of rhs value"
    ∧ ((compile_stmts [c3Stmt]).2.getD 0 .nil).isModule = false
    ∧ ((compile_stmts [c3Stmt]).2.getD 2 .nil).isModule = true
    ∧ (compile_stmts [c3Stmt]).1.map OpCodeMetadata.opcode = [.push 2, .savg "T"] := by
  exact ⟨rfl, rfl, rfl, rfl⟩

/-- C4: in the output of both entry points, every `Jmp`/`Jmf`/`Try`
instruction of the top-level buffer targets an address `a` with
`0 < a ≤ |instructions|` (so in particular `0 ≤ a ≤ |instructions|`, and no
forward-jump placeholder written as target `0` survives to the output), and
every function constant of the pool has all its jumps closed inside its own
buffer. -/
theorem C4_jumps_patched :
    (∀ e : Expr,
      (∀ m ∈ (compile_expr e).1, ∀ a, jumpTarget m.opcode = some a →
        0 < a ∧ a ≤ (compile_expr e).1.length)
      ∧ ∀ v ∈ (compile_expr e).2, ValueJumpsOk v)
    ∧ (∀ ss : List Stmt,
      (∀ m ∈ (compile_stmts ss).1, ∀ a, jumpTarget m.opcode = some a →
        0 < a ∧ a ≤ (compile_stmts ss).1.length)
      ∧ ∀ v ∈ (compile_stmts ss).2, ValueJumpsOk v) := by
  constructor
  · intro e
    have h := compile_expr_ec e
    exact ⟨segClosed_mem h.seg, fun v hv => (h.inv.2.1 v hv).2⟩
  · intro ss
    have h := compile_stmts_state_ec ss
    exact ⟨segClosed_mem h.seg, fun v hv => (h.inv.2.1 v hv).2⟩

/-- Witness for C4: the `Jmp` of the compiled `let x = 1 in x + 2` targets
address 10, inside the 10-instruction buffer. -/
theorem C4_jumps_patched_witness :
    0 < 10 ∧ 10 ≤ (compile_expr c2Expr).1.length := by
  refine (C4_jumps_patched.1 c2Expr).1 ⟨.jmp 10, 1, 1⟩ ?_ 10 rfl
  exact List.get?_mem (rfl : (compile_expr c2Expr).1.get? 5 = some ⟨.jmp 10, 1, 1⟩)

/-- C5: in the output of both entry points, every `Push(i)` of the top-level
buffer satisfies `i < |constants|` of the final pool, and every constant of
the pool (including function constants such as variant constructors)
satisfies the same bound for the pushes inside it. -/
theorem C5_push_bounds :
    (∀ e : Expr,
      (∀ m ∈ (compile_expr e).1, ∀ i, m.opcode = .push i →
        i < (compile_expr e).2.length)
      ∧ ∀ v ∈ (compile_expr e).2, ValuePushOk (compile_expr e).2.length v)
    ∧ (∀ ss : List Stmt,
      (∀ m ∈ (compile_stmts ss).1, ∀ i, m.opcode = .push i →
        i < (compile_stmts ss).2.length)
      ∧ ∀ v ∈ (compile_stmts ss).2, ValuePushOk (compile_stmts ss).2.length v) := by
  constructor
  · intro e
    have h := compile_expr_ec e
    exact ⟨(inv_top h.ne h.inv).2, fun v hv => (h.inv.2.1 v hv).1⟩
  · intro ss
    have h := compile_stmts_state_ec ss
    exact ⟨(inv_top h.ne h.inv).2, fun v hv => (h.inv.2.1 v hv).1⟩

/-- Witness for C5: the first `Push` of the compiled `let x = 1 in x + 2`
references index 0 of its 4-entry pool. -/
theorem C5_push_bounds_witness :
    0 < (compile_expr c2Expr).2.length := by
  refine (C5_push_bounds.1 c2Expr).1 ⟨.push 0, 1, 1⟩ ?_ 0 rfl
  exact List.get?_mem (rfl : (compile_expr c2Expr).1.get? 0 = some ⟨.push 0, 1, 1⟩)

/-- C6: `emit_const` appends module values unconditionally and returns the
new index; a non-module value reuses the index of a structurally equal
(`valueBEq`) entry when one exists and appends otherwise; consequently the
final pool of either entry point never holds two structurally equal entries
unless the earlier one is a module. -/
theorem C6_intern :
    (∀ (v : Value) (l : Location) (σ : CompilerState), v.isModule = true →
        (emit_const v l σ).1 = σ.constants.length
        ∧ (emit_const v l σ).2.constants = σ.constants ++ [v])
    ∧ (∀ (v : Value) (l : Location) (σ : CompilerState), v.isModule = false →
        ((∃ w ∈ σ.constants, valueBEq w v = true) →
          (emit_const v l σ).2.constants = σ.constants
          ∧ ∃ w, σ.constants.get? (emit_const v l σ).1 = some w
              ∧ valueBEq w v = true)
        ∧ ((∀ w ∈ σ.constants, valueBEq w v = false) →
          (emit_const v l σ).1 = σ.constants.length
          ∧ (emit_const v l σ).2.constants = σ.constants ++ [v]))
    ∧ (∀ e, PoolDedup (compile_expr e).2)
    ∧ (∀ ss, PoolDedup (compile_stmts ss).2) := by
  refine ⟨?_, ?_, ?_, ?_⟩
  · intro v l σ hm
    rw [emit_const_eq_module hm]
    exact ⟨rfl, emit_op_constants⟩
  · intro v l σ hm
    constructor
    · intro hex
      obtain ⟨w, hwmem, hwbeq⟩ := hex
      cases hf : σ.constants.findIdx? (fun c => valueBEq c v) with
      | none =>
          have hfalse := findIdx?_none_forall hf w hwmem
          rw [hfalse] at hwbeq
          cases hwbeq
      | some idx =>
          rw [emit_const_eq_found hm hf]
          refine ⟨emit_op_constants, ?_⟩
          obtain ⟨a, ha, hpa⟩ := findIdx?_some_get hf
          rw [Nat.sub_zero] at ha
          exact ⟨a, ha, hpa⟩
    · intro hall
      have hf : σ.constants.findIdx? (fun c => valueBEq c v) = none := by
        rw [List.findIdx?_eq_none_iff]
        intro x hx
        simp [hall x hx]
      rw [emit_const_eq_new hm hf]
      exact ⟨rfl, emit_op_constants⟩
  · intro e
    exact (compile_expr_ec e).inv.2.2
  · intro ss
    exact (compile_stmts_state_ec ss).inv.2.2

/-- Witness for C6: interning a module into the empty pool appends it at
index 0, and reinterning the number 1 into a pool already holding it leaves
the pool unchanged; the pool of the compiled `let x = 1 in x + 2` is
deduplicated. -/
theorem C6_intern_witness :
    ((emit_const (Value.module (.mk "M" [])) l0 initState).1
        = initState.constants.length
      ∧ (emit_const (Value.module (.mk "M" [])) l0 initState).2.constants
        = initState.constants ++ [Value.module (.mk "M" [])])
    ∧ ((emit_const (.num 1) l0
          { initState with constants := [.num 1] }).2.constants
        = ({ initState with constants := [.num 1] } : CompilerState).constants
      ∧ ∃ w, ({ initState with constants := [.num 1] } : CompilerState).constants.get?
            (emit_const (.num 1) l0 { initState with constants := [.num 1] }).1
          = some w ∧ valueBEq w (.num 1) = true)
    ∧ PoolDedup (compile_expr c2Expr).2 := by
  refine ⟨C6_intern.1 (Value.module (.mk "M" [])) l0 initState rfl,
    (C6_intern.2.1 (.num 1) l0 { initState with constants := [.num 1] } rfl).1 ?_,
    C6_intern.2.2.1 c2Expr⟩
  exact ⟨.num 1, by simp, by decide⟩

/-- C7: the `App` arm emits the arguments in source order (`exprList` walks
its list head first), then `RevN(n)` exactly when `n > 1`, then the callee,
and finally `TCall(n)` when the tail flag is set and `Call(n)` otherwise. -/
theorem C7_app :
    ∀ (callee : Expr) (args : List Expr) (tl : Bool) (loc : Location)
      (σ : CompilerState),
      expr (.mk (.app callee args tl) loc) σ
        = (if tl then emit_op (.tcall args.length) loc
           else emit_op (.call args.length) loc)
            (expr callee
              (if args.length > 1
               then emit_op (.revN args.length) loc (exprList args σ)
               else exprList args σ))
      ∧ ∀ (e : Expr) (es : List Expr) (σ0 : CompilerState),
          exprList (e :: es) σ0 = exprList es (expr e σ0) := by
  intro callee args tl loc σ
  constructor
  · cases tl with
    | true => rfl
    | false => rfl
  · intro e es σ0
    rfl

/-- C8: a list literal compiles to the elements in source order, one push of
the (interned) empty-list constant, and `Prep` repeated once per element; in
particular `[]` compiles to just the push of the empty-list constant with no
`Prep`. -/
theorem C8_list :
    ∀ (xs : List Expr) (loc : Location) (σ : CompilerState),
      expr (.mk (.listE xs) loc) σ
        = emit_ops (List.replicate xs.length .prep) loc
            (emit_const (.list []) loc (exprList xs σ)).2
      ∧ (σ.scope_stack ≠ [] → Inv σ →
          opsOf (expr (.mk (.listE xs) loc) σ)
            = opsOf (exprList xs σ)
              ++ [⟨.push (emit_const (.list []) loc (exprList xs σ)).1,
                    loc.line, loc.column⟩]
              ++ (List.replicate xs.length .prep).map
                  (fun o => (⟨o, loc.line, loc.column⟩ : OpCodeMetadata)))
      ∧ ∀ σ2 : CompilerState, expr (.mk (.listE []) loc) σ2
          = (emit_const (.list []) loc σ2).2 := by
  intro xs loc σ
  refine ⟨rfl, ?_, fun σ2 => rfl⟩
  intro hne hinv
  have h1 := exprList_ecx xs σ hne hinv
  have h2 := emit_const_ops (v := .list []) (l := loc) h1.ne
  have h3 := emit_ops_ops (l := loc) (List.replicate xs.length .prep) _ h2.2
  show opsOf (emit_ops (List.replicate xs.length .prep) loc
      (emit_const (.list []) loc (exprList xs σ)).2)
    = opsOf (exprList xs σ)
      ++ [⟨.push (emit_const (.list []) loc (exprList xs σ)).1,
            loc.line, loc.column⟩]
      ++ (List.replicate xs.length .prep).map
          (fun o => (⟨o, loc.line, loc.column⟩ : OpCodeMetadata))
  rw [h3.1, h2.1]

/-- Witness for C8: the empty list literal compiled from a fresh state emits
exactly one push (of pool index 0) and no `Prep`. -/
theorem C8_list_witness :
    opsOf (expr (.mk (.listE []) l0) initState)
      = opsOf (exprList [] initState)
        ++ [⟨.push (emit_const (.list []) l0 (exprList [] initState)).1, 1, 1⟩]
        ++ (List.replicate ([] : List Expr).length OpCode.prep).map
            (fun o => (⟨o, 1, 1⟩ : OpCodeMetadata)) :=
  (C8_list [] l0 initState).2.1 initState_ne inv_initState

/-- C1 (amended): in every scope of the final state of either entry point,
the set of slot indices ever assigned (the ghost log) is exactly a contiguous
prefix `[0, M)` of the naturals.  The no-reassignment half of the original
claim is false (see the counterexample): an index can be assigned again after
the declaration that held it is removed. -/
theorem C1_amended :
    (∀ (e : Expr) (s : Scope), s ∈ (compileExprState e).scope_stack →
      ∃ M, ∀ n, n ∈ s.assigns ↔ n < M)
    ∧ (∀ (ss : List Stmt) (s : Scope),
        s ∈ (ss.foldl (fun σ st => stmt st σ) initState).scope_stack →
        ∃ M, ∀ n, n ∈ s.assigns ↔ n < M) := by
  constructor
  · intro e s hs
    have h := compile_expr_ec e
    obtain ⟨M, hM, _⟩ := (h.inv.1 s hs).1
    exact ⟨M, hM⟩
  · intro ss s hs
    have h := compile_stmts_state_ec ss
    obtain ⟨M, hM, _⟩ := (h.inv.1 s hs).1
    exact ⟨M, hM⟩

/-- Witness for C1 (amended): the scope of the compiled match expression has
assigned exactly the indices below some bound (here 5), even though its ghost
log `[0, 1, 2, 3, 4, 3]` repeats index 3. -/
theorem C1_amended_witness :
    ∃ M, ∀ n, n ∈ (curScope (compileExprState c1Expr)).assigns ↔ n < M := by
  refine C1_amended.1 c1Expr (curScope (compileExprState c1Expr)) ?_
  have hx : (compileExprState c1Expr).scope_stack.length = 1 := rfl
  have hne : (compileExprState c1Expr).scope_stack ≠ [] := by
    intro h
    rw [h] at hx
    simp at hx
  rw [scope_stack_eq hne]
  exact List.mem_cons_self _ _

/-- C3 (amended): `type_` compiles the member lambdas FIRST (interning their
constants), and only afterwards reserves the placeholder pool slot, at
`typeIndex` = the pool size after the member phase; the finalized module
replaces the placeholder at that same reserved index, and compilation ends by
emitting `Push(index); Savg(decl)`. -/
theorem C3_amended :
    ∀ (decl : String) (variants : List (String × List String))
      (members : List Def) (loc : Location) (σ : CompilerState),
      type_ decl variants members loc σ
        = emit_op (.savg decl) loc
            (emit_op (.push (typeIndex members loc σ)) loc
              { (typeMembers loc members [] σ).2 with
                constants := (typeMembers loc members [] σ).2.constants
                  ++ [Value.module (.mk decl
                        (typeFields decl variants members loc σ))] })
      ∧ (type_ decl variants members loc σ).constants.get?
            (typeIndex members loc σ)
          = some (Value.module (.mk decl (typeFields decl variants members loc σ)))
      ∧ typeIndex members loc σ
          = (typeMembers loc members [] σ).2.constants.length := by
  intro decl variants members loc σ
  refine ⟨type_eq_append decl variants members loc σ, ?_, rfl⟩
  rw [type_eq_append decl variants members loc σ, emit_op_constants,
    emit_op_constants]
  show ((typeMembers loc members [] σ).2.constants
      ++ [Value.module (.mk decl (typeFields decl variants members loc σ))]).get?
        (typeIndex members loc σ)
    = some (Value.module (.mk decl (typeFields decl variants members loc σ)))
  simp only [typeIndex]
  exact List.get?_concat_length _ _

/-- C9 (amended): the try emission saves the rescue binding into a local slot
before compiling the rescue body and performs no removal of its own: the
rescue binding is looked up successfully in the state `σ7` handed to the
rescue compilation, the final local map is exactly the local map after the
rescue compilation, and whenever the rescue body preserves the binding, a
later occurrence of the name in the same scope compiles to `Load(slot)` (not
`Loag`).  The frame claim on the rest of the map is false (see the
counterexample): the try body may remove an unrelated entry. -/
theorem C9_amended :
    ∀ (body rescue : Expr) (bind : String) (loc : Location) (σ : CompilerState),
      σ.scope_stack ≠ [] → Inv σ →
      let σ4 := emit_op (.jmp 0) loc (emit_op .endTry loc
        (expr body (emit_op (.tryC 0) loc σ)))
      let σ7 := emit_save bind loc (emit_op .pop loc
        (patchOp (ip σ) (.tryC (ip σ4)) σ4))
      ∃ slot,
        alookup (curScope σ7).locals bind = some slot
        ∧ (curScope (expr (.mk (.tryE body bind rescue) loc) σ)).locals
            = (curScope (expr rescue σ7)).locals
        ∧ (alookup (curScope (expr rescue σ7)).locals bind = some slot →
            ∀ l2 : Location,
              expr (.mk (.var bind) l2) (expr (.mk (.tryE body bind rescue) loc) σ)
                = emit_op (.load slot) l2
                    (expr (.mk (.tryE body bind rescue) loc) σ)) := by
  intro body rescue bind loc σ hne hinv
  intro σ4 σ7
  have h1 := ECX_emit_ph (EC_refl hne hinv) loc (o := .tryC 0) (a := 0) rfl
  have h2 := ECX_ec_trans h1 (expr_ecx body _ h1.ne h1.inv)
  have h3 := ECX_emit_clean h2 .endTry loc rfl (by intro i h; cases h)
  have h4 := ECX_emit_ph h3 loc (o := .jmp 0) (a := 0) rfl
  have h4b := ECX_congr_sites
    (T := [ip σ, ip (emit_op .endTry loc (expr body (emit_op (.tryC 0) loc σ)))])
    h4 (by intro x; simp only [ip, opsOf, List.mem_cons]; tauto)
  have h5 := ECX_patchOne (t := ip σ) (o := .tryC (ip σ4)) h4b (by simp) rfl
  rw [List.erase_cons_head] at h5
  have h6 := ECX_emit_clean h5 .pop loc rfl (by intro i h; cases h)
  obtain ⟨slot, hslot⟩ := emit_save_lookup (b := bind) (l := loc) h6.ne
  have hl2 : (curScope (expr (.mk (.tryE body bind rescue) loc) σ)).locals
      = (curScope (expr rescue σ7)).locals := patchOp_locals
  refine ⟨slot, hslot, hl2, ?_⟩
  intro hpres l2
  have hfin : alookup
      (curScope (expr (.mk (.tryE body bind rescue) loc) σ)).locals bind
      = some slot := by
    rw [hl2]
    exact hpres
  exact expr_var_load hfin

/-- Witness for C9 (amended): the try expression `try 1 rescue e => 2`
compiled from a fresh state binds `e` to a slot before its rescue branch. -/
theorem C9_amended_witness :
    (let σ4 := emit_op (.jmp 0) l0 (emit_op .endTry l0
      (expr (.mk (.lit (.num 1)) l0) (emit_op (.tryC 0) l0 initState)))
     let σ7 := emit_save "e" l0 (emit_op .pop l0
      (patchOp (ip initState) (.tryC (ip σ4)) σ4))
     ∃ slot,
       alookup (curScope σ7).locals "e" = some slot
       ∧ (curScope (expr (.mk (.tryE (.mk (.lit (.num 1)) l0) "e"
             (.mk (.lit (.num 2)) l0)) l0) initState)).locals
           = (curScope (expr (.mk (.lit (.num 2)) l0) σ7)).locals
       ∧ (alookup (curScope (expr (.mk (.lit (.num 2)) l0) σ7)).locals "e"
             = some slot →
           ∀ l2 : Location,
             expr (.mk (.var "e") l2)
                 (expr (.mk (.tryE (.mk (.lit (.num 1)) l0) "e"
                   (.mk (.lit (.num 2)) l0)) l0) initState)
               = emit_op (.load slot) l2
                   (expr (.mk (.tryE (.mk (.lit (.num 1)) l0) "e"
                     (.mk (.lit (.num 2)) l0)) l0) initState))) :=
  C9_amended (.mk (.lit (.num 1)) l0) (.mk (.lit (.num 2)) l0) "e" l0 initState
    initState_ne inv_initState

end Compiler

end Yex
